import Mathlib

/-!
Verification development for the prompt-testing tool.

The Python sources (`tester.py`, `utils.py`, `api_clients.py`,
`formatters.py`) are shallowly embedded below: pure string processing is
translated to functions over `List Char`, the execution engine's
result-assembly path (`run_test`, `run_all_tests`, round fan-out in `run`)
is translated to pure functions parameterised by an invocation oracle, and
the concurrent counter/gate discipline is translated to an explicit event
step relation (`applyEv`) whose events are the code's atomic critical
sections.  Python values that are stringified with `str(...)` before use
are modelled as strings; wall-clock durations are modelled as rationals.
-/

/-- The opening brace character (Python `'\x7b'`). -/
def lbrace : Char := Char.ofNat 123

/-- The closing brace character (Python `'\x7d'`). -/
def rbrace : Char := Char.ofNat 125

/-- Python `\w` word characters (ASCII view: letters, digits, underscore). -/
def isWordChar (c : Char) : Bool := c.isAlphanum || c = '_'

/-- The placeholder text `{{w}}` that `process_prompt` builds with
`f"{{{{{param}}}}}"` (utils.py line 37). -/
def ph (w : List Char) : List Char := lbrace :: lbrace :: (w ++ [rbrace, rbrace])

/-- One attempted match of the regex `{{(\w+)}}` at the head of the string:
two braces, a maximal nonempty run of word characters, two braces.  Returns
the captured parameter name and the rest of the input after the match. -/
def matchParam (s : List Char) : Option (List Char × List Char) :=
  match s with
  | c1 :: c2 :: rest =>
    if c1 = lbrace ∧ c2 = lbrace then
      let w := rest.takeWhile isWordChar
      match rest.drop w.length with
      | d1 :: d2 :: rest2 =>
        if w ≠ [] ∧ d1 = rbrace ∧ d2 = rbrace then some (w, rest2) else none
      | _ => none
    else none
  | _ => none

theorem matchParam_shrink (s w rest : List Char)
    (h : matchParam s = some (w, rest)) : rest.length + 2 ≤ s.length := by
  unfold matchParam at h
  match s with
  | [] => simp at h
  | [c] => simp at h
  | c1 :: c2 :: r =>
    simp only at h
    split at h
    · rename_i hb
      split at h
      · rename_i d1 d2 rest2 hdrop
        split at h
        · simp only [Option.some.injEq, Prod.mk.injEq] at h
          obtain ⟨hw, hrest⟩ := h
          subst hrest
          have hlen : (r.drop (r.takeWhile isWordChar).length).length = rest2.length + 2 := by
            rw [hdrop]; simp
          have hd : (r.drop (r.takeWhile isWordChar).length).length ≤ r.length := by
            simp [List.length_drop]
          simp only [List.length_cons]
          omega
        · simp at h
      · simp at h
    · simp at h

/-- `re.findall(r'{{(\w+)}}', prompt)` (utils.py line 22): the ordered list
of captured parameter names of all leftmost non-overlapping matches. -/
def findParams (s : List Char) : List (List Char) :=
  match hm : matchParam s with
  | some (w, rest) => w :: findParams rest
  | none =>
    match s with
    | [] => []
    | _ :: t => findParams t
termination_by s.length
decreasing_by
  · have := matchParam_shrink s w rest hm
    omega
  · simp

/-- `s.replace(pat, v)` for a nonempty pattern `p :: ps`: left-to-right
scan replacing every non-overlapping occurrence. -/
def replaceAllAux (p : Char) (ps v : List Char) : List Char → List Char
  | [] => []
  | c :: rest =>
    if (p :: ps).isPrefixOf (c :: rest) then
      v ++ replaceAllAux p ps v (rest.drop ps.length)
    else
      c :: replaceAllAux p ps v rest
termination_by s => s.length
decreasing_by
  · simp only [List.length_cons]
    have : (rest.drop ps.length).length ≤ rest.length := by simp [List.length_drop]
    omega
  · simp [List.length_cons]

/-- Python `str.replace(pat, v)` on character lists (empty pattern never
arises from `process_prompt`, whose patterns are `{{…}}`). -/
def replaceAll (pat v s : List Char) : List Char :=
  match pat with
  | [] => s
  | p :: ps => replaceAllAux p ps v s

/-- Association-list lookup used for the `args` dictionary. -/
def alookup (k : List Char) : List (List Char × List Char) → Option (List Char)
  | [] => none
  | (k1, v) :: t => if k1 = k then some v else alookup k t

/-- The core of `process_prompt` (utils.py lines 17-65) on character lists.
`name` is `prompt_config["name"]`, `prompt` is the template
`prompt_config["prompt"]`, `args` is `case["args"]` when that key holds a
dict (otherwise `none`), `tl` is `case["targetLanguage"]` when present.
Parameters found in `args` are replaced by the (stringified) value; missing
parameters are only warned about and left in place. -/
def processPromptCore (name : List Char) (prompt : List Char)
    (args : Option (List (List Char × List Char))) (tl : Option (List Char)) :
    List Char :=
  let params := findParams prompt
  if params.isEmpty then prompt
  else
    match args with
    | some a =>
      params.foldl
        (fun pr param =>
          match alookup param a with
          | some v => replaceAll (ph param) v pr
          | none => pr)
        prompt
    | none =>
      match tl with
      | some t =>
        if name = "translate".toList then
          if "language".toList ∈ params then
            replaceAll (ph "language".toList) t prompt
          else prompt
        else prompt
      | none => prompt

/-- `process_prompt` on Lean strings, wrapping the character-list core. -/
def processPromptStr (name prompt : String)
    (args : Option (List (String × String))) (tl : Option String) : String :=
  String.mk (processPromptCore name.toList prompt.toList
    (args.map (List.map (fun kv => (kv.1.toList, kv.2.toList))))
    (tl.map String.toList))

/-! ## Data model (tester.py / utils.py) -/

/-- One entry of `prompts.json` (`PromptConfig` in utils.py): name, vendor,
model and the prompt template. -/
structure PromptConfig where
  name : String
  vendor : String
  model : String
  prompt : String
deriving DecidableEq, Repr

/-- One test case (`TestCase` in utils.py).  `args` is present only when
the case carries a dict under `"args"`; `targetLanguage` models the legacy
field.  Values are modelled by their `str(...)` form. -/
structure TestCase where
  id : String
  name : String
  description : Option String
  content : String
  args : Option (List (String × String))
  targetLanguage : Option String
deriving DecidableEq, Repr

/-- `args_dict` extraction in `run_single_case` (tester.py lines 210-214). -/
def argsDict (case : TestCase) : List (String × String) :=
  match case.args with
  | some d => d
  | none =>
    match case.targetLanguage with
    | some l => [("language", l)]
    | none => []

/-- A recorded `TestResult` dict (tester.py lines 250-264 and 297-311). -/
structure TestResult where
  prompt_name : String
  prompt_text : String
  processed_prompt : String
  model : String
  vendor : String
  case_id : String
  case_name : String
  case_description : String
  case_content : String
  case_args : List (String × String)
  output_content : String
  elapsed_time : ℚ
  tokens : List (String × String)
deriving DecidableEq, Repr

/-- The error marker prepended to `str(e)` in error outputs. -/
def errMark : String := "错误: "

/-- Outcome of `await self.api_client_manager.call_api(...)`: either the
returned tuple `(content, elapsed_time, tokens, processed_prompt)` or a
raised exception carrying `str(e)`. -/
def CallOutcome : Type :=
  Except String (String × ℚ × List (String × String) × String)

/-! ## api_clients.py -/

/-- `process_prompt(prompt_config, case)` as called by the API layer. -/
def processPrompt (cfg : PromptConfig) (case : TestCase) : String :=
  processPromptStr cfg.name cfg.prompt case.args case.targetLanguage

/-- `call_openai_api` (api_clients.py lines 32-90).  The provider
interaction is abstracted as `provider` (response text and usage counters,
or a provider error) and the measured wall-clock duration `elapsed`.  Both
the success branch and the caught-error branch return a 4-tuple: the error
branch substitutes the error text for the output, an error-only tokens
mapping, and the raw template for the processed prompt, with the real
measured elapsed time. -/
def callOpenaiApi (cfg : PromptConfig) (case : TestCase)
    (provider : Except String (String × List (String × String)))
    (elapsed : ℚ) : String × ℚ × List (String × String) × String :=
  match provider with
  | .ok (resp, usage) => (resp, elapsed, usage, processPrompt cfg case)
  | .error e => (errMark ++ e, elapsed, [("error", e)], cfg.prompt)

/-- `call_anthropic_api` (api_clients.py lines 92-135): identical shape. -/
def callAnthropicApi (cfg : PromptConfig) (case : TestCase)
    (provider : Except String (String × List (String × String)))
    (elapsed : ℚ) : String × ℚ × List (String × String) × String :=
  match provider with
  | .ok (resp, usage) => (resp, elapsed, usage, processPrompt cfg case)
  | .error e => (errMark ++ e, elapsed, [("error", e)], cfg.prompt)

/-- Python `str.lower()`, character-wise (vendor names are ASCII). -/
def strLower (s : String) : String := String.mk (s.data.map Char.toLower)

/-- `call_api` (api_clients.py lines 137-148): vendor dispatch.
`openaiInit` / `anthropicInit` record whether the respective client was
initialised; an uninitialised client or an unsupported vendor raises a
`ValueError`, modelled as `Except.error`. -/
def callApi (cfg : PromptConfig) (case : TestCase)
    (openaiInit anthropicInit : Bool)
    (provider : Except String (String × List (String × String)))
    (elapsed : ℚ) : CallOutcome :=
  if strLower cfg.vendor = "openai" then
    if openaiInit then .ok (callOpenaiApi cfg case provider elapsed)
    else .error "OpenAI客户端未初始化"
  else if strLower cfg.vendor = "anthropic" then
    if anthropicInit then .ok (callAnthropicApi cfg case provider elapsed)
    else .error "Anthropic客户端未初始化"
  else .error ("不支持的提供商: " ++ cfg.vendor)

/-! ## tester.py: result assembly -/

/-- `run_single_case` (tester.py lines 205-312), result construction only:
one `TestResult` is produced whether `call_api` returns (`Except.ok`) or
raises (`Except.error`).  On an escaped exception the result records the
error text as output, elapsed time `0.0`, an error-only tokens mapping and
the raw template as the processed prompt. -/
def runSingleCase (promptName : String) (cfg : PromptConfig)
    (case : TestCase) (outcome : CallOutcome) : TestResult :=
  match outcome with
  | .ok (content, elapsed, tokens, processed) =>
    { prompt_name := promptName
      prompt_text := cfg.prompt
      processed_prompt := processed
      model := cfg.model
      vendor := cfg.vendor
      case_id := case.id
      case_name := case.name
      case_description := case.description.getD ""
      case_content := case.content
      case_args := argsDict case
      output_content := content
      elapsed_time := elapsed
      tokens := tokens }
  | .error e =>
    { prompt_name := promptName
      prompt_text := cfg.prompt
      processed_prompt := cfg.prompt
      model := cfg.model
      vendor := cfg.vendor
      case_id := case.id
      case_name := case.name
      case_description := case.description.getD ""
      case_content := case.content
      case_args := argsDict case
      output_content := errMark ++ e
      elapsed_time := 0
      tokens := [("error", e)] }

/-- An invocation oracle: the outcome `call_api` produces for the case at
`(round, promptName, caseIndex)`. -/
def Oracle : Type := Nat → String → Nat → CallOutcome

/-- `run_test(prompt_name, round_num)` (tester.py lines 174-325): missing
prompt configuration or an empty case list yields `[]`; otherwise
`asyncio.gather` collects exactly one result per case, in case order. -/
def runTest (prompts : List PromptConfig) (casesMap : List (String × List TestCase))
    (oracle : Oracle) (promptName : String) (roundNum : Nat) : List TestResult :=
  match prompts.find? (fun p => p.name = promptName) with
  | none => []
  | some cfg =>
    let cases := (casesMap.lookup promptName).getD []
    if cases.isEmpty then []
    else cases.enum.map (fun ic =>
      runSingleCase promptName cfg ic.2 (oracle roundNum promptName ic.1))

/-- Python dict assignment `d[k] = v` on an insertion-ordered
association list. -/
def dictInsert {β : Type} (d : List (String × β)) (k : String) (v : β) :
    List (String × β) :=
  if d.any (fun e => e.1 = k) then d.map (fun e => if e.1 = k then (k, v) else e)
  else d ++ [(k, v)]

/-- `run_all_tests(selected_prompts, round_num)` (tester.py lines 327-375):
early return of an empty dict when the round has zero cases, otherwise the
gathered `(prompt_name, results)` pairs are inserted in selection order,
skipping empty result lists. -/
def runAllTests (prompts : List PromptConfig) (casesMap : List (String × List TestCase))
    (oracle : Oracle) (selected : List String) (roundNum : Nat) :
    List (String × List TestResult) :=
  let roundTotalCases :=
    (selected.map (fun n => ((casesMap.lookup n).getD []).length)).sum
  if roundTotalCases = 0 then []
  else
    (selected.map (fun n => (n, runTest prompts casesMap oracle n roundNum))).foldl
      (fun acc nr => if nr.2.isEmpty then acc else dictInsert acc nr.1 nr.2) []

/-- The per-round fan-out in `run` (tester.py lines 456-468): rounds are
numbered `1..rounds` and each round's dict is keyed by its number (the
display label `第n轮` is applied by `roundLabel`). -/
def runAllRounds (prompts : List PromptConfig) (casesMap : List (String × List TestCase))
    (oracle : Oracle) (selected : List String) (rounds : Nat) :
    List (Nat × List (String × List TestResult)) :=
  (List.range rounds).map (fun i =>
    (i + 1, runAllTests prompts casesMap oracle selected (i + 1)))

/-- The round label `f"第{round_num}轮"`. -/
def roundLabel (n : Nat) : String := "第" ++ toString n ++ "轮"

/-- Whether a selected prompt name actually yields work: a configuration
with that name exists and its case list is nonempty. -/
def promptRunnable (prompts : List PromptConfig)
    (casesMap : List (String × List TestCase)) (n : String) : Prop :=
  (prompts.find? (fun p => p.name = n)).isSome ∧
    ¬ ((casesMap.lookup n).getD []).isEmpty

instance (prompts : List PromptConfig) (casesMap : List (String × List TestCase))
    (n : String) : Decidable (promptRunnable prompts casesMap n) := by
  unfold promptRunnable; infer_instance

/-- The generated WorkItems: `(round, promptName, caseIndex)` for every
round `1..rounds`, every selected prompt that is found runnable, and every
case index of that prompt. -/
def workItems (prompts : List PromptConfig) (casesMap : List (String × List TestCase))
    (selected : List String) (rounds : Nat) : List (Nat × String × Nat) :=
  (List.range rounds).flatMap (fun i =>
    selected.flatMap (fun n =>
      if promptRunnable prompts casesMap n then
        (List.range ((casesMap.lookup n).getD []).length).map (fun j => (i + 1, n, j))
      else []))

/-- The `(round, promptName, caseIndex)` addresses of the CaseResults
collected into a RunResult (case index = position in the ordered list). -/
def resultKeys (out : List (Nat × List (String × List TestResult))) :
    List (Nat × String × Nat) :=
  out.flatMap (fun rr => rr.2.flatMap (fun nr =>
    (List.range nr.2.length).map (fun j => (rr.1, nr.1, j))))

/-- All TestResults of a run, flattened. -/
def allResults (out : List (Nat × List (String × List TestResult))) :
    List TestResult :=
  out.flatMap (fun rr => rr.2.flatMap (fun nr => nr.2))

/-! ## formatters.py and the interrupt path (tester.py lines 520-579) -/

/-- A value stored under a prompt-level key of the structure handed to
`save_results_as_html`: the normal path stores ordered CaseResult lists;
the interrupt path stores a single `"info"` record. -/
inductive ReportEntry
  | results (rs : List TestResult)
  | info (completed total : Nat) (interruptedTime note : String)
deriving DecidableEq

/-- The report payload: round-level key to entries. -/
def Report : Type := List (String × List (String × ReportEntry))

/-- Number of CaseResults contained in a report payload. -/
def reportCaseCount (rep : Report) : Nat :=
  (rep.map (fun r =>
    (r.2.map (fun e =>
      match e.2 with
      | .results rs => rs.length
      | .info _ _ _ _ => 0)).sum)).sum

/-- The complete-run payload handed to `save_results_as_html` (tester.py
lines 467-475): every round's prompt→results mapping, under round labels. -/
def completeReport (out : List (Nat × List (String × List TestResult))) : Report :=
  out.map (fun rr => (roundLabel rr.1, rr.2.map (fun nr => (nr.1, .results nr.2))))

/-- The payload built in the `KeyboardInterrupt` handler (tester.py lines
554-564): a single fixed key holding only an `info` record with the global
counters, an interruption timestamp and a fixed partial-result note. -/
def interruptReport (completed total : Nat) (timeStr : String) : Report :=
  [("部分测试结果",
    [("info", .info completed total timeStr "此结果不完整，测试被用户中断")])]

/-- `f"{filename_prefix}_{timestamp}.html"` (formatters.py line 110). -/
def htmlFileName (filenamePrefix timestamp : String) : String :=
  filenamePrefix ++ "_" ++ timestamp ++ ".html"

/-- Default `filename_prefix` of `save_results_as_html`. -/
def completePrefixStr : String := "test_results"

/-- The `filename_prefix` passed for interrupted runs (tester.py line 568). -/
def interruptedPrefixStr : String := "interrupted_test"

/-! ## LiveRenderer throttle (tester.py lines 50-51 and 587-600) -/

/-- `self._console_update_interval = 0.2` seconds. -/
def consoleUpdateInterval : ℚ := 2/10

/-- The throttle-relevant state of `_update_console_output`. -/
structure ConsoleState where
  lastConsoleUpdate : ℚ
deriving DecidableEq

/-- `_update_console_output` throttle head (tester.py lines 593-600): skip,
with no state change, when strictly less than the minimum interval elapsed
since the last repaint; otherwise repaint and record the repaint time.
Returns whether a repaint happened together with the new state. -/
def updateConsoleOutput (now : ℚ) (s : ConsoleState) : Bool × ConsoleState :=
  if now - s.lastConsoleUpdate < consoleUpdateInterval then (false, s)
  else (true, { lastConsoleUpdate := now })

/-! ## Concurrency trace model (tester.py)

The engine's shared mutable state — the global `completed_cases` counter,
`_round_progress`, `_prompt_progress`, the three semaphores — is mutated
only inside atomic critical sections (`async with self._console_lock` /
semaphore acquire-release points).  Each such section is one event; a run
is a sequence of events, constrained exactly as the source constrains it:
the round semaphore is created once in `run` (line 454), the prompt
semaphore once per `run_all_tests` call, i.e. per round (line 350), and
the case semaphore once per `run_test` call, i.e. per (round, prompt)
(line 315). -/

structure RunCfg where
  prompts : List PromptConfig
  casesMap : List (String × List TestCase)
  selected : List String
  rounds : Nat
  maxRoundConcurrency : Nat
  maxPromptConcurrency : Nat
  maxCaseConcurrency : Nat

/-- `len(self.cases_map.get(prompt_name, []))`. -/
def nCases (c : RunCfg) (n : String) : Nat := ((c.casesMap.lookup n).getD []).length

/-- The prompt is found and has cases, so `run_test` runs its cases. -/
def runnable (c : RunCfg) (n : String) : Prop :=
  promptRunnable c.prompts c.casesMap n

instance (c : RunCfg) (n : String) : Decidable (runnable c n) := by
  unfold runnable; infer_instance

/-- `len(results)` returned by `run_test` for this prompt. -/
def resLen (c : RunCfg) (n : String) : Nat :=
  if runnable c n then nCases c n else 0

/-- `round_total_cases` (tester.py line 337). -/
def roundTotalCfg (c : RunCfg) : Nat := (c.selected.map (nCases c)).sum

/-- `self.total_cases = test_rounds * cases_per_round` (line 447). -/
def totalCasesCfg (c : RunCfg) : Nat := c.rounds * roundTotalCfg c

/-- The engine's shared state: counters, the two progress dicts, the gate
occupancies, and the control residue (which cases/prompts/rounds started or
finished) implicit in the tasks' program counters. -/
structure RunState where
  completedCases : Nat
  roundProg : List (Nat × Nat × Nat)
  promptProg : List ((Nat × String) × Nat × Nat)
  roundActive : List Nat
  roundDone : List Nat
  promptActive : List (Nat × String)
  promptDone : List (Nat × String)
  running : List (Nat × String × Nat)
  caseDone : List (Nat × String × Nat)
deriving DecidableEq

def lookupRound (l : List (Nat × Nat × Nat)) (r : Nat) : Option (Nat × Nat) :=
  (l.find? (fun e => e.1 = r)).map (·.2)

def lookupPrompt (l : List ((Nat × String) × Nat × Nat)) (r : Nat) (p : String) :
    Option (Nat × Nat) :=
  (l.find? (fun e => e.1 = (r, p))).map (·.2)

/-- `self._round_progress[round_num]["completed"] += k`, guarded by
`if round_num in self._round_progress` (lines 358-359). -/
def bumpRound (l : List (Nat × Nat × Nat)) (r k : Nat) : List (Nat × Nat × Nat) :=
  l.map (fun e => if e.1 = r then (e.1, e.2.1, e.2.2 + k) else e)

/-- `self._prompt_progress[key]["completed"] += 1`, guarded by
`if prompt_key in self._prompt_progress` (lines 269-271 / 285-287). -/
def bumpPrompt (l : List ((Nat × String) × Nat × Nat)) (r : Nat) (p : String) :
    List ((Nat × String) × Nat × Nat) :=
  l.map (fun e => if e.1 = (r, p) then (e.1, e.2.1, e.2.2 + 1) else e)

/-- Slots of the case semaphore of `(r, p)` currently held. -/
def countRunning (s : RunState) (r : Nat) (p : String) : Nat :=
  (s.running.filter (fun x => x.1 = r ∧ x.2.1 = p)).length

def countCaseDone (l : List (Nat × String × Nat)) (r : Nat) (p : String) : Nat :=
  (l.filter (fun x => x.1 = r ∧ x.2.1 = p)).length

/-- Atomic events of a run. -/
inductive Ev
  | acquireRound (r : Nat)
  | initRound (r : Nat)
  | acquirePrompt (r : Nat) (p : String)
  | initPrompt (r : Nat) (p : String)
  | startCase (r : Nat) (p : String) (i : Nat)
  | doneCase (r : Nat) (p : String) (i : Nat)
  | donePrompt (r : Nat) (p : String)
  | releaseRound (r : Nat)

/-- The guarded transition of each event, `none` when the event cannot fire
in `s` under the source's control flow:
* `acquireRound`: a round task (numbered `1..rounds`, each spawned once)
  enters `round_semaphore` (capacity `max_round_concurrency`).
* `initRound`: `run_all_tests` initialises `_round_progress[r]` after its
  zero-case early return (line 339), inside the console lock.
* `acquirePrompt`: a prompt task of round `r` (one per selected name,
  spawned after the round init) enters that round's `prompt_semaphore`.
* `initPrompt`: `run_test` initialises `_prompt_progress` after its
  missing-config / no-cases early returns.
* `startCase`: a case task enters the case semaphore created by this
  `run_test` call — one semaphore per `(round, prompt)`.
* `doneCase`: the case's critical section: release of the slot, one
  `_prompt_progress` increment and one `completed_cases` increment.
* `donePrompt`: `run_prompt_with_semaphore` resumes after `run_test`'s
  gather (all cases done, or an early return for a non-runnable prompt),
  adds `len(results)` to `_round_progress[r]` and releases its slot.
* `releaseRound`: the round task returns once every prompt task did. -/
def applyEv (c : RunCfg) (s : RunState) : Ev → Option RunState
  | .acquireRound r =>
    if 1 ≤ r ∧ r ≤ c.rounds ∧ r ∉ s.roundActive ∧ r ∉ s.roundDone ∧
        s.roundActive.length < c.maxRoundConcurrency then
      some { s with roundActive := r :: s.roundActive }
    else none
  | .initRound r =>
    if r ∈ s.roundActive ∧ lookupRound s.roundProg r = none ∧ roundTotalCfg c ≠ 0 then
      some { s with roundProg := (r, roundTotalCfg c, 0) :: s.roundProg }
    else none
  | .acquirePrompt r p =>
    if r ∈ s.roundActive ∧ (lookupRound s.roundProg r).isSome ∧ p ∈ c.selected ∧
        (r, p) ∉ s.promptActive ∧ (r, p) ∉ s.promptDone ∧
        (s.promptActive.filter (fun x => x.1 = r)).length < c.maxPromptConcurrency then
      some { s with promptActive := (r, p) :: s.promptActive }
    else none
  | .initPrompt r p =>
    if (r, p) ∈ s.promptActive ∧ runnable c p ∧ lookupPrompt s.promptProg r p = none then
      some { s with promptProg := ((r, p), nCases c p, 0) :: s.promptProg }
    else none
  | .startCase r p i =>
    if (r, p) ∈ s.promptActive ∧ (lookupPrompt s.promptProg r p).isSome ∧
        i < nCases c p ∧ (r, p, i) ∉ s.running ∧ (r, p, i) ∉ s.caseDone ∧
        countRunning s r p < c.maxCaseConcurrency then
      some { s with running := (r, p, i) :: s.running }
    else none
  | .doneCase r p i =>
    if (r, p, i) ∈ s.running then
      some { s with running := s.running.erase (r, p, i)
                    caseDone := (r, p, i) :: s.caseDone
                    promptProg := bumpPrompt s.promptProg r p
                    completedCases := s.completedCases + 1 }
    else none
  | .donePrompt r p =>
    if (r, p) ∈ s.promptActive ∧
        (runnable c p → countCaseDone s.caseDone r p = nCases c p) then
      some { s with promptActive := s.promptActive.erase (r, p)
                    promptDone := (r, p) :: s.promptDone
                    roundProg := bumpRound s.roundProg r (resLen c p) }
    else none
  | .releaseRound r =>
    if r ∈ s.roundActive ∧
        (roundTotalCfg c = 0 ∨ ∀ p ∈ c.selected, (r, p) ∈ s.promptDone) then
      some { s with roundActive := s.roundActive.erase r
                    roundDone := r :: s.roundDone }
    else none

/-- State at the start of `run` (counters zeroed at line 448). -/
def initState : RunState := ⟨0, [], [], [], [], [], [], [], []⟩

def runTrace (c : RunCfg) (evs : List Ev) : Option RunState :=
  evs.foldlM (applyEv c) initState

/-- States the engine can be in during some execution. -/
def Reachable (c : RunCfg) (s : RunState) : Prop :=
  ∃ evs, runTrace c evs = some s

/-- `completed` read at the global progress node. -/
def globalCompleted (s : RunState) : Nat := s.completedCases

/-- `completed` read at a round node (0 before the node exists). -/
def roundCompleted (s : RunState) (r : Nat) : Nat :=
  ((lookupRound s.roundProg r).map (·.2)).getD 0

/-- `total` recorded at a round node. -/
def roundTotalAt (s : RunState) (r : Nat) : Nat :=
  ((lookupRound s.roundProg r).map (·.1)).getD 0

/-- `completed` read at a prompt node. -/
def promptCompleted (s : RunState) (r : Nat) (p : String) : Nat :=
  ((lookupPrompt s.promptProg r p).map (·.2)).getD 0

/-- `total` recorded at a prompt node. -/
def promptTotalAt (s : RunState) (r : Nat) (p : String) : Nat :=
  ((lookupPrompt s.promptProg r p).map (·.1)).getD 0

/-- Sum of the per-prompt `completed` counters. -/
def sumPromptCompleted (s : RunState) : Nat :=
  (s.promptProg.map (fun e => e.2.2)).sum

/-- Sum of the per-round `completed` counters. -/
def sumRoundCompleted (s : RunState) : Nat :=
  (s.roundProg.map (fun e => e.2.2)).sum

/-- Total number of case-semaphore slots held across the whole pool. -/
def totalRunning (s : RunState) : Nat := s.running.length

/-! ### Helper lemmas for the trace model -/

theorem lookupRound_isSome_iff (l : List (Nat × Nat × Nat)) (r : Nat) :
    (lookupRound l r).isSome ↔ r ∈ l.map (fun e => e.1) := by
  induction l with
  | nil => simp [lookupRound]
  | cons e t ih =>
    by_cases he : e.1 = r
    · rw [lookupRound, List.find?_cons_of_pos _ (by simpa using he)]
      simp [he]
    · rw [lookupRound, List.find?_cons_of_neg _ (by simpa using he)]
      rw [lookupRound] at ih
      rw [List.map_cons, List.mem_cons, ih]
      constructor
      · exact fun h => Or.inr h
      · rintro (h | h)
        · exact absurd h.symm he
        · exact h

theorem lookupPrompt_isSome_iff (l : List ((Nat × String) × Nat × Nat)) (r : Nat)
    (p : String) :
    (lookupPrompt l r p).isSome ↔ (r, p) ∈ l.map (fun e => e.1) := by
  induction l with
  | nil => simp [lookupPrompt]
  | cons e t ih =>
    by_cases he : e.1 = (r, p)
    · rw [lookupPrompt, List.find?_cons_of_pos _ (by simpa using he)]
      simp [he]
    · rw [lookupPrompt, List.find?_cons_of_neg _ (by simpa using he)]
      rw [lookupPrompt] at ih
      rw [List.map_cons, List.mem_cons, ih]
      constructor
      · exact fun h => Or.inr h
      · rintro (h | h)
        · exact absurd h.symm he
        · exact h

theorem bumpPrompt_keys (l : List ((Nat × String) × Nat × Nat)) (r : Nat) (p : String) :
    (bumpPrompt l r p).map (fun e => e.1) = l.map (fun e => e.1) := by
  induction l with
  | nil => rfl
  | cons e t ih =>
    simp only [bumpPrompt, List.map_cons] at ih ⊢
    by_cases he : e.1 = (r, p) <;> simp [he, ih]

theorem bumpRound_keys (l : List (Nat × Nat × Nat)) (r k : Nat) :
    (bumpRound l r k).map (fun e => e.1) = l.map (fun e => e.1) := by
  induction l with
  | nil => rfl
  | cons e t ih =>
    simp only [bumpRound, List.map_cons] at ih ⊢
    by_cases he : e.1 = r <;> simp [he, ih]

theorem lookupPrompt_bump_isSome (l : List ((Nat × String) × Nat × Nat))
    (r r' : Nat) (p p' : String) :
    (lookupPrompt (bumpPrompt l r p) r' p').isSome ↔ (lookupPrompt l r' p').isSome := by
  rw [lookupPrompt_isSome_iff, lookupPrompt_isSome_iff, bumpPrompt_keys]

theorem lookupRound_bump_isSome (l : List (Nat × Nat × Nat)) (r r' k : Nat) :
    (lookupRound (bumpRound l r k) r').isSome ↔ (lookupRound l r').isSome := by
  rw [lookupRound_isSome_iff, lookupRound_isSome_iff, bumpRound_keys]

theorem lookupRound_cons_isSome (e : Nat × Nat × Nat) (l : List (Nat × Nat × Nat))
    (r : Nat) (h : (lookupRound l r).isSome) :
    (lookupRound (e :: l) r).isSome := by
  rw [lookupRound_isSome_iff] at h ⊢
  simp [h]

theorem lookupPrompt_cons_isSome (e : (Nat × String) × Nat × Nat)
    (l : List ((Nat × String) × Nat × Nat)) (r : Nat) (p : String)
    (h : (lookupPrompt l r p).isSome) :
    (lookupPrompt (e :: l) r p).isSome := by
  rw [lookupPrompt_isSome_iff] at h ⊢
  simp [h]

theorem countCaseDone_cons (x : Nat × String × Nat) (l : List (Nat × String × Nat))
    (r : Nat) (p : String) :
    countCaseDone (x :: l) r p =
      countCaseDone l r p + (if x.1 = r ∧ x.2.1 = p then 1 else 0) := by
  simp only [countCaseDone, List.filter_cons]
  by_cases hx : x.1 = r ∧ x.2.1 = p
  · simp [hx]
  · simp [hx]

theorem countCaseDone_eq_zero (l : List (Nat × String × Nat)) (r : Nat) (p : String)
    (h : ∀ x ∈ l, ¬(x.1 = r ∧ x.2.1 = p)) : countCaseDone l r p = 0 := by
  simp only [countCaseDone, List.length_eq_zero, List.filter_eq_nil_iff]
  intro x hx
  simpa using h x hx

theorem countRunning_erase_le (s : RunState) (y : Nat × String × Nat)
    (r : Nat) (p : String) :
    (((s.running.erase y).filter (fun x => x.1 = r ∧ x.2.1 = p)).length) ≤
      countRunning s r p := by
  unfold countRunning
  exact List.Sublist.length_le (List.Sublist.filter _ (List.erase_sublist y s.running))

/-- If the `(r, p)` slice of a duplicate-free case list has full count `n`
and every index in it is below `n`, then every index below `n` occurs. -/
theorem mem_of_countCaseDone_full (l : List (Nat × String × Nat)) (r : Nat)
    (p : String) (n : Nat) (hnd : l.Nodup)
    (hlt : ∀ x ∈ l, x.1 = r → x.2.1 = p → x.2.2 < n)
    (hcount : countCaseDone l r p = n) :
    ∀ i < n, (r, p, i) ∈ l := by
  intro i hi
  set f := l.filter (fun x => x.1 = r ∧ x.2.1 = p) with hf
  have hmemf : ∀ x ∈ f, x = (r, p, x.2.2) := by
    intro x hx
    have hpred := List.of_mem_filter hx
    simp only [decide_eq_true_eq] at hpred
    obtain ⟨h1, h2⟩ := hpred
    ext <;> simp [h1, h2]
  have hfnd : f.Nodup := List.Nodup.filter _ hnd
  have hisnd : (f.map (fun x => x.2.2)).Nodup := by
    refine List.Nodup.map_on ?_ hfnd
    intro x hx y hy hxy
    rw [hmemf x hx, hmemf y hy, hxy]
  have hislen : (f.map (fun x => x.2.2)).length = n := by
    simpa [countCaseDone, hf] using hcount
  have hislt : ∀ j ∈ f.map (fun x => x.2.2), j < n := by
    intro j hj
    obtain ⟨x, hx, hxj⟩ := List.mem_map.mp hj
    have hpred := List.of_mem_filter hx
    simp only [decide_eq_true_eq] at hpred
    exact hxj ▸ hlt x (List.mem_of_mem_filter hx) hpred.1 hpred.2
  have hsub : (f.map (fun x => x.2.2)).toFinset ⊆ Finset.range n := by
    intro j hj
    exact Finset.mem_range.mpr (hislt j (List.mem_toFinset.mp hj))
  have hcard : (f.map (fun x => x.2.2)).toFinset.card = n := by
    rw [List.toFinset_card_of_nodup hisnd, hislen]
  have heq : (f.map (fun x => x.2.2)).toFinset = Finset.range n :=
    Finset.eq_of_subset_of_card_le hsub (by rw [hcard, Finset.card_range])
  have hmem : i ∈ (f.map (fun x => x.2.2)).toFinset := by
    rw [heq]; exact Finset.mem_range.mpr hi
  obtain ⟨x, hx, hxi⟩ := List.mem_map.mp (List.mem_toFinset.mp hmem)
  have hxeq : x = (r, p, i) := by rw [hmemf x hx, hxi]
  exact hxeq ▸ List.mem_of_mem_filter hx

/-- The inductive invariant of the trace model: the counters at every node
are exactly determined by the control residue, all bookkeeping lists are
duplicate-free and internally consistent, and every case semaphore is
within its capacity. -/
structure EngineInv (c : RunCfg) (s : RunState) : Prop where
  completed_eq : s.completedCases = s.caseDone.length
  running_nodup : s.running.Nodup
  caseDone_nodup : s.caseDone.Nodup
  running_caseDone_disj : ∀ x ∈ s.running, x ∉ s.caseDone
  running_keys : ∀ x ∈ s.running,
    (lookupPrompt s.promptProg x.1 x.2.1).isSome = true ∧ x.2.2 < nCases c x.2.1
  caseDone_keys : ∀ x ∈ s.caseDone,
    (lookupPrompt s.promptProg x.1 x.2.1).isSome = true ∧ x.2.2 < nCases c x.2.1
  running_active : ∀ x ∈ s.running, (x.1, x.2.1) ∈ s.promptActive
  prompt_nodup_keys : (s.promptProg.map (fun e => e.1)).Nodup
  prompt_entries : ∀ e ∈ s.promptProg,
    e.2.1 = nCases c e.1.2 ∧ e.2.2 = countCaseDone s.caseDone e.1.1 e.1.2 ∧
    runnable c e.1.2 ∧ e.1.2 ∈ c.selected ∧ 1 ≤ e.1.1 ∧ e.1.1 ≤ c.rounds ∧
    (lookupRound s.roundProg e.1.1).isSome = true
  round_nodup_keys : (s.roundProg.map (fun e => e.1)).Nodup
  round_entries : ∀ e ∈ s.roundProg,
    e.2.1 = roundTotalCfg c ∧
    e.2.2 = ((s.promptDone.filter (fun k => k.1 = e.1)).map (fun k => resLen c k.2)).sum
  promptDone_nodup : s.promptDone.Nodup
  promptActive_nodup : s.promptActive.Nodup
  active_done_disj : ∀ k ∈ s.promptActive, k ∉ s.promptDone
  promptActive_valid : ∀ k ∈ s.promptActive,
    k.2 ∈ c.selected ∧ 1 ≤ k.1 ∧ k.1 ≤ c.rounds ∧
    (lookupRound s.roundProg k.1).isSome = true
  promptDone_valid : ∀ k ∈ s.promptDone,
    k.2 ∈ c.selected ∧ (lookupRound s.roundProg k.1).isSome = true
  promptDone_complete : ∀ k ∈ s.promptDone,
    runnable c k.2 → countCaseDone s.caseDone k.1 k.2 = nCases c k.2
  running_bound : ∀ r p, countRunning s r p ≤ c.maxCaseConcurrency
  roundActive_valid : ∀ r ∈ s.roundActive, 1 ≤ r ∧ r ≤ c.rounds

theorem engineInv_initState (c : RunCfg) : EngineInv c initState := by
  constructor <;> simp [initState, countRunning]

theorem engineInv_acquireRound (c : RunCfg) (s : RunState) (r : Nat)
    (h : EngineInv c s) (h1 : 1 ≤ r) (h2 : r ≤ c.rounds) :
    EngineInv c { s with roundActive := r :: s.roundActive } :=
  { completed_eq := h.completed_eq
    running_nodup := h.running_nodup
    caseDone_nodup := h.caseDone_nodup
    running_caseDone_disj := h.running_caseDone_disj
    running_keys := h.running_keys
    caseDone_keys := h.caseDone_keys
    running_active := h.running_active
    prompt_nodup_keys := h.prompt_nodup_keys
    prompt_entries := h.prompt_entries
    round_nodup_keys := h.round_nodup_keys
    round_entries := h.round_entries
    promptDone_nodup := h.promptDone_nodup
    promptActive_nodup := h.promptActive_nodup
    active_done_disj := h.active_done_disj
    promptActive_valid := h.promptActive_valid
    promptDone_valid := h.promptDone_valid
    promptDone_complete := h.promptDone_complete
    running_bound := h.running_bound
    roundActive_valid := by
      intro r' hr'
      rcases List.mem_cons.mp hr' with h' | h'
      · exact h' ▸ ⟨h1, h2⟩
      · exact h.roundActive_valid r' h' }

theorem engineInv_releaseRound (c : RunCfg) (s : RunState) (r : Nat)
    (h : EngineInv c s) :
    EngineInv c { s with roundActive := s.roundActive.erase r,
                         roundDone := r :: s.roundDone } :=
  { completed_eq := h.completed_eq
    running_nodup := h.running_nodup
    caseDone_nodup := h.caseDone_nodup
    running_caseDone_disj := h.running_caseDone_disj
    running_keys := h.running_keys
    caseDone_keys := h.caseDone_keys
    running_active := h.running_active
    prompt_nodup_keys := h.prompt_nodup_keys
    prompt_entries := h.prompt_entries
    round_nodup_keys := h.round_nodup_keys
    round_entries := h.round_entries
    promptDone_nodup := h.promptDone_nodup
    promptActive_nodup := h.promptActive_nodup
    active_done_disj := h.active_done_disj
    promptActive_valid := h.promptActive_valid
    promptDone_valid := h.promptDone_valid
    promptDone_complete := h.promptDone_complete
    running_bound := h.running_bound
    roundActive_valid := fun r' hr' =>
      h.roundActive_valid r' (List.mem_of_mem_erase hr') }

theorem engineInv_initRound (c : RunCfg) (s : RunState) (r : Nat)
    (h : EngineInv c s) (hnone : lookupRound s.roundProg r = none) :
    EngineInv c { s with roundProg := (r, roundTotalCfg c, 0) :: s.roundProg } := by
  have hnotmem : r ∉ s.roundProg.map (fun e => e.1) := by
    intro hmem
    rw [← lookupRound_isSome_iff] at hmem
    rw [hnone] at hmem
    simp at hmem
  exact
    { completed_eq := h.completed_eq
      running_nodup := h.running_nodup
      caseDone_nodup := h.caseDone_nodup
      running_caseDone_disj := h.running_caseDone_disj
      running_keys := h.running_keys
      caseDone_keys := h.caseDone_keys
      running_active := h.running_active
      prompt_nodup_keys := h.prompt_nodup_keys
      prompt_entries := by
        intro e he
        obtain ⟨a1, a2, a3, a4, a5, a6, a7⟩ := h.prompt_entries e he
        exact ⟨a1, a2, a3, a4, a5, a6, lookupRound_cons_isSome _ _ _ a7⟩
      round_nodup_keys := by
        simp only [List.map_cons, List.nodup_cons]
        exact ⟨hnotmem, h.round_nodup_keys⟩
      round_entries := by
        intro e he
        rcases List.mem_cons.mp he with h' | h'
        · subst h'
          refine ⟨rfl, ?_⟩
          have hfil : s.promptDone.filter (fun k => k.1 = r) = [] := by
            rw [List.filter_eq_nil_iff]
            intro k hk hkr
            simp only [decide_eq_true_eq] at hkr
            have hv := (h.promptDone_valid k hk).2
            rw [hkr, hnone] at hv
            simp at hv
          simp [hfil]
        · exact h.round_entries e h'
      promptDone_nodup := h.promptDone_nodup
      promptActive_nodup := h.promptActive_nodup
      active_done_disj := h.active_done_disj
      promptActive_valid := by
        intro k hk
        obtain ⟨a1, a2, a3, a4⟩ := h.promptActive_valid k hk
        exact ⟨a1, a2, a3, lookupRound_cons_isSome _ _ _ a4⟩
      promptDone_valid := by
        intro k hk
        obtain ⟨a1, a2⟩ := h.promptDone_valid k hk
        exact ⟨a1, lookupRound_cons_isSome _ _ _ a2⟩
      promptDone_complete := h.promptDone_complete
      running_bound := h.running_bound
      roundActive_valid := h.roundActive_valid }

theorem engineInv_acquirePrompt (c : RunCfg) (s : RunState) (r : Nat) (p : String)
    (h : EngineInv c s) (hrA : r ∈ s.roundActive)
    (hrP : (lookupRound s.roundProg r).isSome = true) (hsel : p ∈ c.selected)
    (hnA : (r, p) ∉ s.promptActive) (hnD : (r, p) ∉ s.promptDone) :
    EngineInv c { s with promptActive := (r, p) :: s.promptActive } :=
  { completed_eq := h.completed_eq
    running_nodup := h.running_nodup
    caseDone_nodup := h.caseDone_nodup
    running_caseDone_disj := h.running_caseDone_disj
    running_keys := h.running_keys
    caseDone_keys := h.caseDone_keys
    running_active := fun x hx => List.mem_cons_of_mem _ (h.running_active x hx)
    prompt_nodup_keys := h.prompt_nodup_keys
    prompt_entries := h.prompt_entries
    round_nodup_keys := h.round_nodup_keys
    round_entries := h.round_entries
    promptDone_nodup := h.promptDone_nodup
    promptActive_nodup := List.nodup_cons.mpr ⟨hnA, h.promptActive_nodup⟩
    active_done_disj := by
      intro k hk
      rcases List.mem_cons.mp hk with h' | h'
      · exact h' ▸ hnD
      · exact h.active_done_disj k h'
    promptActive_valid := by
      intro k hk
      rcases List.mem_cons.mp hk with h' | h'
      · subst h'
        exact ⟨hsel, (h.roundActive_valid r hrA).1, (h.roundActive_valid r hrA).2, hrP⟩
      · exact h.promptActive_valid k h'
    promptDone_valid := h.promptDone_valid
    promptDone_complete := h.promptDone_complete
    running_bound := h.running_bound
    roundActive_valid := h.roundActive_valid }

theorem engineInv_initPrompt (c : RunCfg) (s : RunState) (r : Nat) (p : String)
    (h : EngineInv c s) (hact : (r, p) ∈ s.promptActive) (hrun : runnable c p)
    (hnone : lookupPrompt s.promptProg r p = none) :
    EngineInv c { s with promptProg := ((r, p), nCases c p, 0) :: s.promptProg } := by
  have hnotmem : (r, p) ∉ s.promptProg.map (fun e => e.1) := by
    intro hmem
    rw [← lookupPrompt_isSome_iff] at hmem
    rw [hnone] at hmem
    simp at hmem
  have hcount0 : countCaseDone s.caseDone r p = 0 := by
    apply countCaseDone_eq_zero
    intro x hx hkey
    have hl := (h.caseDone_keys x hx).1
    rw [hkey.1, hkey.2, hnone] at hl
    simp at hl
  exact
    { completed_eq := h.completed_eq
      running_nodup := h.running_nodup
      caseDone_nodup := h.caseDone_nodup
      running_caseDone_disj := h.running_caseDone_disj
      running_keys := fun x hx =>
        ⟨lookupPrompt_cons_isSome _ _ _ _ (h.running_keys x hx).1,
         (h.running_keys x hx).2⟩
      caseDone_keys := fun x hx =>
        ⟨lookupPrompt_cons_isSome _ _ _ _ (h.caseDone_keys x hx).1,
         (h.caseDone_keys x hx).2⟩
      running_active := h.running_active
      prompt_nodup_keys := by
        simp only [List.map_cons, List.nodup_cons]
        exact ⟨hnotmem, h.prompt_nodup_keys⟩
      prompt_entries := by
        intro e he
        rcases List.mem_cons.mp he with h' | h'
        · subst h'
          exact ⟨rfl, hcount0.symm, hrun, (h.promptActive_valid _ hact).1,
            (h.promptActive_valid _ hact).2.1, (h.promptActive_valid _ hact).2.2.1,
            (h.promptActive_valid _ hact).2.2.2⟩
        · exact h.prompt_entries e h'
      round_nodup_keys := h.round_nodup_keys
      round_entries := h.round_entries
      promptDone_nodup := h.promptDone_nodup
      promptActive_nodup := h.promptActive_nodup
      active_done_disj := h.active_done_disj
      promptActive_valid := h.promptActive_valid
      promptDone_valid := h.promptDone_valid
      promptDone_complete := h.promptDone_complete
      running_bound := h.running_bound
      roundActive_valid := h.roundActive_valid }

theorem engineInv_startCase (c : RunCfg) (s : RunState) (r : Nat) (p : String)
    (i : Nat) (h : EngineInv c s) (hact : (r, p) ∈ s.promptActive)
    (hlook : (lookupPrompt s.promptProg r p).isSome = true)
    (hi : i < nCases c p) (hnR : (r, p, i) ∉ s.running)
    (hnD : (r, p, i) ∉ s.caseDone)
    (hcnt : countRunning s r p < c.maxCaseConcurrency) :
    EngineInv c { s with running := (r, p, i) :: s.running } :=
  { completed_eq := h.completed_eq
    running_nodup := List.nodup_cons.mpr ⟨hnR, h.running_nodup⟩
    caseDone_nodup := h.caseDone_nodup
    running_caseDone_disj := by
      intro x hx
      rcases List.mem_cons.mp hx with h' | h'
      · exact h' ▸ hnD
      · exact h.running_caseDone_disj x h'
    running_keys := by
      intro x hx
      rcases List.mem_cons.mp hx with h' | h'
      · subst h'
        exact ⟨hlook, hi⟩
      · exact h.running_keys x h'
    caseDone_keys := h.caseDone_keys
    running_active := by
      intro x hx
      rcases List.mem_cons.mp hx with h' | h'
      · subst h'
        exact hact
      · exact h.running_active x h'
    prompt_nodup_keys := h.prompt_nodup_keys
    prompt_entries := h.prompt_entries
    round_nodup_keys := h.round_nodup_keys
    round_entries := h.round_entries
    promptDone_nodup := h.promptDone_nodup
    promptActive_nodup := h.promptActive_nodup
    active_done_disj := h.active_done_disj
    promptActive_valid := h.promptActive_valid
    promptDone_valid := h.promptDone_valid
    promptDone_complete := h.promptDone_complete
    running_bound := by
      intro r' p'
      simp only [countRunning, List.filter_cons]
      by_cases hk : (r, p, i).1 = r' ∧ (r, p, i).2.1 = p'
      · have hrp : r = r' ∧ p = p' := by simpa using hk
        rw [if_pos (by simpa using hk)]
        simp only [List.length_cons]
        have := hcnt
        rw [hrp.1, hrp.2] at this
        unfold countRunning at this
        omega
      · rw [if_neg (by simpa using hk)]
        exact h.running_bound r' p'
    roundActive_valid := h.roundActive_valid }

theorem exists_entry_of_lookupPrompt (l : List ((Nat × String) × Nat × Nat))
    (r : Nat) (p : String) (h : (lookupPrompt l r p).isSome = true) :
    ∃ e ∈ l, e.1 = (r, p) := by
  rw [lookupPrompt_isSome_iff] at h
  obtain ⟨e, he, heq⟩ := List.mem_map.mp h
  exact ⟨e, he, heq⟩

theorem engineInv_doneCase (c : RunCfg) (s : RunState) (r : Nat) (p : String)
    (i : Nat) (h : EngineInv c s) (hrun : (r, p, i) ∈ s.running) :
    EngineInv c { s with running := s.running.erase (r, p, i),
                         caseDone := (r, p, i) :: s.caseDone,
                         promptProg := bumpPrompt s.promptProg r p,
                         completedCases := s.completedCases + 1 } := by
  have hact : (r, p) ∈ s.promptActive := h.running_active _ hrun
  have hkey := h.running_keys _ hrun
  have hnD : (r, p, i) ∉ s.caseDone := h.running_caseDone_disj _ hrun
  have hndone : (r, p) ∉ s.promptDone := h.active_done_disj _ hact
  exact
    { completed_eq := by
        simp only [List.length_cons]
        rw [h.completed_eq]
      running_nodup := h.running_nodup.erase _
      caseDone_nodup := List.nodup_cons.mpr ⟨hnD, h.caseDone_nodup⟩
      running_caseDone_disj := by
        intro x hx
        have hx' := (List.Nodup.mem_erase_iff h.running_nodup).mp hx
        intro hmem
        rcases List.mem_cons.mp hmem with h' | h'
        · exact hx'.1 h'
        · exact h.running_caseDone_disj x hx'.2 h'
      running_keys := by
        intro x hx
        have hx' := List.mem_of_mem_erase hx
        exact ⟨(lookupPrompt_bump_isSome _ _ _ _ _).mpr (h.running_keys x hx').1,
          (h.running_keys x hx').2⟩
      caseDone_keys := by
        intro x hx
        rcases List.mem_cons.mp hx with h' | h'
        · subst h'
          exact ⟨(lookupPrompt_bump_isSome _ _ _ _ _).mpr hkey.1, hkey.2⟩
        · exact ⟨(lookupPrompt_bump_isSome _ _ _ _ _).mpr (h.caseDone_keys x h').1,
            (h.caseDone_keys x h').2⟩
      running_active := fun x hx =>
        h.running_active x (List.mem_of_mem_erase hx)
      prompt_nodup_keys := by
        rw [bumpPrompt_keys]
        exact h.prompt_nodup_keys
      prompt_entries := by
        intro e' he'
        obtain ⟨e, he, heq⟩ := List.mem_map.mp he'
        by_cases hk : e.1 = (r, p)
        · rw [if_pos hk] at heq
          subst heq
          obtain ⟨a1, a2, a3, a4, a5, a6, a7⟩ := h.prompt_entries e he
          have h1 : e.1.1 = r := by rw [hk]
          have h2 : e.1.2 = p := by rw [hk]
          refine ⟨a1, ?_, a3, a4, a5, a6, a7⟩
          show e.2.2 + 1 = countCaseDone ((r, p, i) :: s.caseDone) e.1.1 e.1.2
          rw [countCaseDone_cons, if_pos ⟨h1.symm, h2.symm⟩]
          omega
        · rw [if_neg hk] at heq
          subst heq
          obtain ⟨a1, a2, a3, a4, a5, a6, a7⟩ := h.prompt_entries e he
          refine ⟨a1, ?_, a3, a4, a5, a6, a7⟩
          rw [countCaseDone_cons]
          rw [if_neg ?_]
          · omega
          · intro hcontra
            apply hk
            have h1 : r = e.1.1 := hcontra.1
            have h2 : p = e.1.2 := hcontra.2
            ext <;> simp [h1.symm, h2.symm]
      round_nodup_keys := h.round_nodup_keys
      round_entries := h.round_entries
      promptDone_nodup := h.promptDone_nodup
      promptActive_nodup := h.promptActive_nodup
      active_done_disj := h.active_done_disj
      promptActive_valid := h.promptActive_valid
      promptDone_valid := h.promptDone_valid
      promptDone_complete := by
        intro k hk hkrun
        rw [countCaseDone_cons]
        rw [if_neg ?_]
        · simpa using h.promptDone_complete k hk hkrun
        · intro hcontra
          apply hndone
          have hkeq : k = (r, p) :=
            Prod.ext_iff.mpr ⟨hcontra.1.symm, hcontra.2.symm⟩
          exact hkeq ▸ hk
      running_bound := fun r' p' =>
        le_trans (countRunning_erase_le s (r, p, i) r' p') (h.running_bound r' p')
      roundActive_valid := h.roundActive_valid }

theorem engineInv_donePrompt (c : RunCfg) (s : RunState) (r : Nat) (p : String)
    (h : EngineInv c s) (hact : (r, p) ∈ s.promptActive)
    (hcomp : runnable c p → countCaseDone s.caseDone r p = nCases c p) :
    EngineInv c { s with promptActive := s.promptActive.erase (r, p),
                         promptDone := (r, p) :: s.promptDone,
                         roundProg := bumpRound s.roundProg r (resLen c p) } := by
  have hndone : (r, p) ∉ s.promptDone := h.active_done_disj _ hact
  have hnorun : ∀ x ∈ s.running, ¬(x.1 = r ∧ x.2.1 = p) := by
    intro x hx hxkey
    by_cases hr : runnable c p
    · have hc := hcomp hr
      have hlt : ∀ y ∈ s.caseDone, y.1 = r → y.2.1 = p → y.2.2 < nCases c p := by
        intro y hy hy1 hy2
        have hylt := (h.caseDone_keys y hy).2
        rw [hy2] at hylt
        exact hylt
      have hall := mem_of_countCaseDone_full s.caseDone r p (nCases c p)
        h.caseDone_nodup hlt hc
      have hxlt : x.2.2 < nCases c p := by
        have hxk := (h.running_keys x hx).2
        rw [hxkey.2] at hxk
        exact hxk
      have hxmem : (r, p, x.2.2) ∈ s.caseDone := hall x.2.2 hxlt
      have hxeq : x = (r, p, x.2.2) :=
        Prod.ext_iff.mpr ⟨hxkey.1, Prod.ext_iff.mpr ⟨hxkey.2, rfl⟩⟩
      exact h.running_caseDone_disj x hx (hxeq ▸ hxmem)
    · have hl := (h.running_keys x hx).1
      rw [hxkey.1, hxkey.2] at hl
      obtain ⟨e, he, hekey⟩ := exists_entry_of_lookupPrompt _ _ _ hl
      have hrune := (h.prompt_entries e he).2.2.1
      rw [hekey] at hrune
      exact hr hrune
  exact
    { completed_eq := h.completed_eq
      running_nodup := h.running_nodup
      caseDone_nodup := h.caseDone_nodup
      running_caseDone_disj := h.running_caseDone_disj
      running_keys := h.running_keys
      caseDone_keys := h.caseDone_keys
      running_active := by
        intro x hx
        have hold := h.running_active x hx
        have hne : (x.1, x.2.1) ≠ (r, p) := by
          intro heq
          exact hnorun x hx ⟨congrArg Prod.fst heq, congrArg Prod.snd heq⟩
        exact (List.mem_erase_of_ne hne).mpr hold
      prompt_nodup_keys := h.prompt_nodup_keys
      prompt_entries := by
        intro e he
        obtain ⟨a1, a2, a3, a4, a5, a6, a7⟩ := h.prompt_entries e he
        exact ⟨a1, a2, a3, a4, a5, a6, (lookupRound_bump_isSome _ _ _ _).mpr a7⟩
      round_nodup_keys := by
        rw [bumpRound_keys]
        exact h.round_nodup_keys
      round_entries := by
        intro e' he'
        obtain ⟨e, he, heq⟩ := List.mem_map.mp he'
        by_cases hk : e.1 = r
        · rw [if_pos hk] at heq
          subst heq
          obtain ⟨b1, b2⟩ := h.round_entries e he
          refine ⟨b1, ?_⟩
          show e.2.2 + resLen c p =
            ((((r, p) :: s.promptDone).filter (fun k => k.1 = e.1)).map
              (fun k => resLen c k.2)).sum
          rw [List.filter_cons, if_pos (by simp [hk])]
          simp only [List.map_cons, List.sum_cons]
          omega
        · rw [if_neg hk] at heq
          subst heq
          obtain ⟨b1, b2⟩ := h.round_entries e he
          refine ⟨b1, ?_⟩
          show e.2.2 =
            ((((r, p) :: s.promptDone).filter (fun k => k.1 = e.1)).map
              (fun k => resLen c k.2)).sum
          rw [List.filter_cons, if_neg (by simpa using fun h' => hk h'.symm)]
          exact b2
      promptDone_nodup := List.nodup_cons.mpr ⟨hndone, h.promptDone_nodup⟩
      promptActive_nodup := h.promptActive_nodup.erase _
      active_done_disj := by
        intro k hk
        have hk' := (List.Nodup.mem_erase_iff h.promptActive_nodup).mp hk
        intro hmem
        rcases List.mem_cons.mp hmem with h' | h'
        · exact hk'.1 h'
        · exact h.active_done_disj k hk'.2 h'
      promptActive_valid := by
        intro k hk
        obtain ⟨a1, a2, a3, a4⟩ := h.promptActive_valid k (List.mem_of_mem_erase hk)
        exact ⟨a1, a2, a3, (lookupRound_bump_isSome _ _ _ _).mpr a4⟩
      promptDone_valid := by
        intro k hk
        rcases List.mem_cons.mp hk with h' | h'
        · subst h'
          obtain ⟨a1, _, _, a4⟩ := h.promptActive_valid _ hact
          exact ⟨a1, (lookupRound_bump_isSome _ _ _ _).mpr a4⟩
        · obtain ⟨a1, a2⟩ := h.promptDone_valid k h'
          exact ⟨a1, (lookupRound_bump_isSome _ _ _ _).mpr a2⟩
      promptDone_complete := by
        intro k hk hkrun
        rcases List.mem_cons.mp hk with h' | h'
        · subst h'
          exact hcomp hkrun
        · exact h.promptDone_complete k h' hkrun
      running_bound := h.running_bound
      roundActive_valid := h.roundActive_valid }

/-- The invariant is preserved by every fireable event. -/
theorem engineInv_step (c : RunCfg) (s s' : RunState) (ev : Ev)
    (h : EngineInv c s) (hstep : applyEv c s ev = some s') : EngineInv c s' := by
  cases ev with
  | acquireRound r =>
    simp only [applyEv] at hstep
    split at hstep
    · rename_i hg
      cases hstep
      exact engineInv_acquireRound c s r h hg.1 hg.2.1
    · cases hstep
  | initRound r =>
    simp only [applyEv] at hstep
    split at hstep
    · rename_i hg
      cases hstep
      exact engineInv_initRound c s r h hg.2.1
    · cases hstep
  | acquirePrompt r p =>
    simp only [applyEv] at hstep
    split at hstep
    · rename_i hg
      cases hstep
      exact engineInv_acquirePrompt c s r p h hg.1 hg.2.1 hg.2.2.1 hg.2.2.2.1
        hg.2.2.2.2.1
    · cases hstep
  | initPrompt r p =>
    simp only [applyEv] at hstep
    split at hstep
    · rename_i hg
      cases hstep
      exact engineInv_initPrompt c s r p h hg.1 hg.2.1 hg.2.2
    · cases hstep
  | startCase r p i =>
    simp only [applyEv] at hstep
    split at hstep
    · rename_i hg
      cases hstep
      exact engineInv_startCase c s r p i h hg.1 hg.2.1 hg.2.2.1 hg.2.2.2.1
        hg.2.2.2.2.1 hg.2.2.2.2.2
    · cases hstep
  | doneCase r p i =>
    simp only [applyEv] at hstep
    split at hstep
    · rename_i hg
      cases hstep
      exact engineInv_doneCase c s r p i h hg
    · cases hstep
  | donePrompt r p =>
    simp only [applyEv] at hstep
    split at hstep
    · rename_i hg
      cases hstep
      exact engineInv_donePrompt c s r p h hg.1 hg.2
    · cases hstep
  | releaseRound r =>
    simp only [applyEv] at hstep
    split at hstep
    · rename_i hg
      cases hstep
      exact engineInv_releaseRound c s r h
    · cases hstep

/-- The invariant holds after any fireable event sequence from an
invariant state. -/
theorem engineInv_foldl (c : RunCfg) (evs : List Ev) (s0 s : RunState)
    (h0 : EngineInv c s0) (h : evs.foldlM (applyEv c) s0 = some s) :
    EngineInv c s := by
  induction evs generalizing s0 with
  | nil =>
    simp only [List.foldlM_nil, Option.pure_def, Option.some.injEq] at h
    subst h
    exact h0
  | cons ev t ih =>
    rw [List.foldlM_cons] at h
    cases hstep : applyEv c s0 ev with
    | none =>
      rw [hstep] at h
      simp at h
    | some s1 =>
      rw [hstep] at h
      exact ih s1 (engineInv_step c s0 s1 ev h0 hstep) h

/-- Every reachable state satisfies the invariant. -/
theorem engineInv_reachable (c : RunCfg) (s : RunState) (h : Reachable c s) :
    EngineInv c s := by
  obtain ⟨evs, hrun⟩ := h
  exact engineInv_foldl c evs initState s (engineInv_initState c) hrun

/-! ### Counting consequences of the invariant -/

theorem sum_single_eq_zero {α : Type} [DecidableEq α] (ks : List α) (a : α)
    (v : Nat) (hmem : a ∉ ks) :
    (ks.map (fun k => if a = k then v else 0)).sum = 0 := by
  induction ks with
  | nil => rfl
  | cons k t ih =>
    simp only [List.map_cons, List.sum_cons]
    rw [if_neg (fun h => hmem (by rw [h]; exact List.mem_cons_self k t))]
    rw [ih (fun h => hmem (List.mem_cons_of_mem k h))]

theorem sum_single_eq {α : Type} [DecidableEq α] (ks : List α) (a : α) (v : Nat)
    (hnd : ks.Nodup) (hmem : a ∈ ks) :
    (ks.map (fun k => if a = k then v else 0)).sum = v := by
  induction ks with
  | nil => cases hmem
  | cons k t ih =>
    simp only [List.map_cons, List.sum_cons]
    rcases List.mem_cons.mp hmem with h' | h'
    · rw [if_pos h']
      rw [sum_single_eq_zero t a v (h' ▸ (List.nodup_cons.mp hnd).1)]
      omega
    · rw [if_neg ?_, ih (List.nodup_cons.mp hnd).2 h']
      · omega
      · intro he
        exact (List.nodup_cons.mp hnd).1 (he ▸ h')

theorem sum_single_le {α : Type} [DecidableEq α] (ks : List α) (a : α) (v : Nat)
    (hnd : ks.Nodup) :
    (ks.map (fun k => if a = k then v else 0)).sum ≤ v := by
  by_cases h : a ∈ ks
  · rw [sum_single_eq ks a v hnd h]
  · rw [sum_single_eq_zero ks a v h]
    omega

theorem sum_map_add_nat {α : Type} (l : List α) (f g : α → Nat) :
    (l.map (fun a => f a + g a)).sum = (l.map f).sum + (l.map g).sum := by
  induction l with
  | nil => rfl
  | cons x t ih =>
    simp only [List.map_cons, List.sum_cons, ih]
    omega

/-- Rewriting the `countCaseDone` indicator condition to a pair equation. -/
theorem countCaseDone_cons_pair (x : Nat × String × Nat)
    (l : List (Nat × String × Nat)) (k : Nat × String) :
    countCaseDone (x :: l) k.1 k.2 =
      countCaseDone l k.1 k.2 + (if (x.1, x.2.1) = k then 1 else 0) := by
  rw [countCaseDone_cons]
  congr 1
  by_cases h : (x.1, x.2.1) = k
  · rw [if_pos h, if_pos ⟨congrArg Prod.fst h, congrArg Prod.snd h⟩]
  · rw [if_neg h, if_neg ?_]
    intro hc
    exact h (Prod.ext_iff.mpr ⟨hc.1, hc.2⟩)

/-- Summing the per-key case counts over duplicate-free keys covering all
recorded cases recovers the total number of recorded cases. -/
theorem sum_countCaseDone_eq (ks : List (Nat × String)) (l : List (Nat × String × Nat))
    (hnd : ks.Nodup) (hcov : ∀ x ∈ l, (x.1, x.2.1) ∈ ks) :
    (ks.map (fun k => countCaseDone l k.1 k.2)).sum = l.length := by
  induction l with
  | nil =>
    have hz : ∀ k ∈ ks, countCaseDone ([] : List (Nat × String × Nat)) k.1 k.2 = 0 := by
      intro k _
      rfl
    rw [List.map_congr_left hz]
    simp
  | cons x t ih =>
    have hmap : ks.map (fun k => countCaseDone (x :: t) k.1 k.2) =
        ks.map (fun k => countCaseDone t k.1 k.2 + (if (x.1, x.2.1) = k then 1 else 0)) :=
      List.map_congr_left (fun k _ => countCaseDone_cons_pair x t k)
    rw [hmap, sum_map_add_nat]
    rw [ih (fun y hy => hcov y (List.mem_cons_of_mem x hy))]
    rw [sum_single_eq ks (x.1, x.2.1) 1 hnd (hcov x (List.mem_cons_self x t))]
    simp

/-- Summing the per-key case counts over any duplicate-free keys never
exceeds the total number of recorded cases. -/
theorem sum_countCaseDone_le (ks : List (Nat × String)) (l : List (Nat × String × Nat))
    (hnd : ks.Nodup) :
    (ks.map (fun k => countCaseDone l k.1 k.2)).sum ≤ l.length := by
  induction l with
  | nil =>
    have hz : ∀ k ∈ ks, countCaseDone ([] : List (Nat × String × Nat)) k.1 k.2 = 0 := by
      intro k _
      rfl
    rw [List.map_congr_left hz]
    simp
  | cons x t ih =>
    have hmap : ks.map (fun k => countCaseDone (x :: t) k.1 k.2) =
        ks.map (fun k => countCaseDone t k.1 k.2 + (if (x.1, x.2.1) = k then 1 else 0)) :=
      List.map_congr_left (fun k _ => countCaseDone_cons_pair x t k)
    rw [hmap, sum_map_add_nat]
    have hle := sum_single_le ks (x.1, x.2.1) 1 hnd
    simp only [List.length_cons]
    omega

/-- Partitioning a sum over a list of pairs by the (covered, duplicate-free)
first components. -/
theorem sum_filter_partition (f : Nat × String → Nat) (ks : List Nat)
    (l : List (Nat × String)) (hnd : ks.Nodup) (hcov : ∀ x ∈ l, x.1 ∈ ks) :
    (ks.map (fun r => ((l.filter (fun k => k.1 = r)).map f).sum)).sum =
      (l.map f).sum := by
  induction l with
  | nil => simp
  | cons x t ih =>
    have hmap : ks.map (fun r => (((x :: t).filter (fun k => k.1 = r)).map f).sum) =
        ks.map (fun r =>
          (if x.1 = r then f x else 0) + ((t.filter (fun k => k.1 = r)).map f).sum) := by
      refine List.map_congr_left (fun r _ => ?_)
      rw [List.filter_cons]
      by_cases hx : x.1 = r
      · rw [if_pos (by simpa using hx), if_pos hx]
        simp
      · rw [if_neg (by simpa using hx), if_neg hx]
        simp
    rw [hmap, sum_map_add_nat]
    rw [ih (fun y hy => hcov y (List.mem_cons_of_mem x hy))]
    rw [sum_single_eq ks x.1 (f x) hnd (hcov x (List.mem_cons_self x t))]
    simp

theorem lookupRound_cons (e : Nat × Nat × Nat) (l : List (Nat × Nat × Nat)) (r : Nat) :
    lookupRound (e :: l) r = if e.1 = r then some e.2 else lookupRound l r := by
  by_cases he : e.1 = r
  · rw [lookupRound, List.find?_cons_of_pos _ (by simpa using he), if_pos he]
    rfl
  · rw [lookupRound, List.find?_cons_of_neg _ (by simpa using he), if_neg he]
    rfl

theorem lookupPrompt_cons (e : (Nat × String) × Nat × Nat)
    (l : List ((Nat × String) × Nat × Nat)) (r : Nat) (p : String) :
    lookupPrompt (e :: l) r p =
      if e.1 = (r, p) then some e.2 else lookupPrompt l r p := by
  by_cases he : e.1 = (r, p)
  · rw [lookupPrompt, List.find?_cons_of_pos _ (by simpa using he), if_pos he]
    rfl
  · rw [lookupPrompt, List.find?_cons_of_neg _ (by simpa using he), if_neg he]
    rfl

theorem lookupRound_bump (l : List (Nat × Nat × Nat)) (r k r' : Nat) :
    lookupRound (bumpRound l r k) r' =
      (lookupRound l r').map (fun v => if r' = r then (v.1, v.2 + k) else v) := by
  induction l with
  | nil => rfl
  | cons e t ih =>
    rw [show bumpRound (e :: t) r k =
      (if e.1 = r then (e.1, e.2.1, e.2.2 + k) else e) :: bumpRound t r k from rfl]
    rw [lookupRound_cons, lookupRound_cons]
    by_cases he : e.1 = r
    · rw [if_pos he]
      by_cases he' : e.1 = r'
      · rw [if_pos he', if_pos he']
        have hrr : r' = r := he' ▸ he
        simp [hrr]
      · rw [if_neg he', if_neg he']
        exact ih
    · rw [if_neg he]
      by_cases he' : e.1 = r'
      · rw [if_pos he', if_pos he']
        have hrr : ¬ r' = r := fun h => he (he' ▸ h ▸ rfl)
        simp [hrr]
      · rw [if_neg he', if_neg he']
        exact ih

theorem lookupPrompt_bump (l : List ((Nat × String) × Nat × Nat)) (r : Nat)
    (p : String) (r' : Nat) (p' : String) :
    lookupPrompt (bumpPrompt l r p) r' p' =
      (lookupPrompt l r' p').map
        (fun v => if (r', p') = (r, p) then (v.1, v.2 + 1) else v) := by
  induction l with
  | nil => rfl
  | cons e t ih =>
    rw [show bumpPrompt (e :: t) r p =
      (if e.1 = (r, p) then (e.1, e.2.1, e.2.2 + 1) else e) :: bumpPrompt t r p from rfl]
    rw [lookupPrompt_cons, lookupPrompt_cons]
    by_cases he : e.1 = (r, p)
    · rw [if_pos he]
      by_cases he' : e.1 = (r', p')
      · rw [if_pos he', if_pos he']
        have hrr : (r', p') = (r, p) := he' ▸ he
        simp [hrr]
      · rw [if_neg he', if_neg he']
        exact ih
    · rw [if_neg he]
      by_cases he' : e.1 = (r', p')
      · rw [if_pos he', if_pos he']
        have hrr : ¬ (r', p') = (r, p) := fun h => he (he' ▸ h ▸ rfl)
        simp [hrr]
      · rw [if_neg he', if_neg he']
        exact ih

theorem lookupRound_mem (l : List (Nat × Nat × Nat)) (r : Nat) (v : Nat × Nat)
    (h : lookupRound l r = some v) : ∃ e ∈ l, e.1 = r ∧ e.2 = v := by
  induction l with
  | nil => cases h
  | cons e t ih =>
    rw [lookupRound_cons] at h
    by_cases he : e.1 = r
    · rw [if_pos he] at h
      exact ⟨e, List.mem_cons_self e t, he, by injection h⟩
    · rw [if_neg he] at h
      obtain ⟨e', he', h1, h2⟩ := ih h
      exact ⟨e', List.mem_cons_of_mem e he', h1, h2⟩

theorem lookupPrompt_mem (l : List ((Nat × String) × Nat × Nat)) (r : Nat)
    (p : String) (v : Nat × Nat) (h : lookupPrompt l r p = some v) :
    ∃ e ∈ l, e.1 = (r, p) ∧ e.2 = v := by
  induction l with
  | nil => cases h
  | cons e t ih =>
    rw [lookupPrompt_cons] at h
    by_cases he : e.1 = (r, p)
    · rw [if_pos he] at h
      exact ⟨e, List.mem_cons_self e t, he, by injection h⟩
    · rw [if_neg he] at h
      obtain ⟨e', he', h1, h2⟩ := ih h
      exact ⟨e', List.mem_cons_of_mem e he', h1, h2⟩

/-- The `(r, p)` slice of a duplicate-free case list with indices below `n`
has at most `n` elements. -/
theorem countCaseDone_le_of (l : List (Nat × String × Nat)) (r : Nat) (p : String)
    (n : Nat) (hnd : l.Nodup)
    (hlt : ∀ x ∈ l, x.1 = r → x.2.1 = p → x.2.2 < n) :
    countCaseDone l r p ≤ n := by
  set f := l.filter (fun x => x.1 = r ∧ x.2.1 = p) with hf
  have hmemf : ∀ x ∈ f, x = (r, p, x.2.2) := by
    intro x hx
    have hpred := List.of_mem_filter hx
    simp only [decide_eq_true_eq] at hpred
    obtain ⟨h1, h2⟩ := hpred
    ext <;> simp [h1, h2]
  have hfnd : f.Nodup := List.Nodup.filter _ hnd
  have hisnd : (f.map (fun x => x.2.2)).Nodup := by
    refine List.Nodup.map_on ?_ hfnd
    intro x hx y hy hxy
    rw [hmemf x hx, hmemf y hy, hxy]
  have hislt : ∀ j ∈ f.map (fun x => x.2.2), j < n := by
    intro j hj
    obtain ⟨x, hx, hxj⟩ := List.mem_map.mp hj
    have hpred := List.of_mem_filter hx
    simp only [decide_eq_true_eq] at hpred
    exact hxj ▸ hlt x (List.mem_of_mem_filter hx) hpred.1 hpred.2
  have hsub : (f.map (fun x => x.2.2)).toFinset ⊆ Finset.range n := by
    intro j hj
    exact Finset.mem_range.mpr (hislt j (List.mem_toFinset.mp hj))
  have hcard := Finset.card_le_card hsub
  rw [List.toFinset_card_of_nodup hisnd, Finset.card_range] at hcard
  simpa [countCaseDone, hf] using hcard

theorem sum_map_le_of_subset (f : String → Nat) :
    ∀ (l1 l2 : List String), l1.Nodup → (∀ a ∈ l1, a ∈ l2) →
      (l1.map f).sum ≤ (l2.map f).sum := by
  intro l1
  induction l1 with
  | nil =>
    intro l2 _ _
    simp
  | cons x t ih =>
    intro l2 hnd hsub
    have hx : x ∈ l2 := hsub x (List.mem_cons_self x t)
    have hperm : List.Perm l2 (x :: l2.erase x) := List.perm_cons_erase hx
    have hmapperm : List.Perm (l2.map f) ((x :: l2.erase x).map f) := hperm.map f
    rw [hmapperm.sum_eq]
    simp only [List.map_cons, List.sum_cons]
    have hnd' := List.nodup_cons.mp hnd
    have hsub' : ∀ a ∈ t, a ∈ l2.erase x := by
      intro a ha
      have hne : a ≠ x := fun h => hnd'.1 (h ▸ ha)
      exact (List.mem_erase_of_ne hne).mpr (hsub a (List.mem_cons_of_mem x ha))
    exact Nat.add_le_add_left (ih (l2.erase x) hnd'.2 hsub') (f x)

theorem sum_range_const (n v : Nat) :
    ((List.range n).map (fun _ => v)).sum = n * v := by
  induction n with
  | zero => simp
  | succ m ih =>
    rw [List.range_succ, List.map_append, List.sum_append, ih]
    simp [Nat.succ_mul]

/-- At an invariant state, every prompt node satisfies
`completed ≤ total`. -/
theorem promptNode_le (c : RunCfg) (s : RunState) (h : EngineInv c s)
    (r : Nat) (p : String) : promptCompleted s r p ≤ promptTotalAt s r p := by
  unfold promptCompleted promptTotalAt
  cases hl : lookupPrompt s.promptProg r p with
  | none => exact Nat.le_refl _
  | some v =>
    obtain ⟨e, he, hekey, hev⟩ := lookupPrompt_mem _ _ _ _ hl
    obtain ⟨a1, a2, _, _, _, _, _⟩ := h.prompt_entries e he
    show v.2 ≤ v.1
    rw [← hev, a1, a2]
    apply countCaseDone_le_of _ _ _ _ h.caseDone_nodup
    intro x hx hx1 hx2
    have hxk := (h.caseDone_keys x hx).2
    rw [hx2] at hxk
    exact hxk

/-- At an invariant state, every round node satisfies `completed ≤ total`. -/
theorem roundNode_le (c : RunCfg) (s : RunState) (h : EngineInv c s) (r : Nat) :
    roundCompleted s r ≤ roundTotalAt s r := by
  unfold roundCompleted roundTotalAt
  cases hl : lookupRound s.roundProg r with
  | none => exact Nat.le_refl _
  | some v =>
    obtain ⟨e, he, hekey, hev⟩ := lookupRound_mem _ _ _ hl
    obtain ⟨b1, b2⟩ := h.round_entries e he
    show v.2 ≤ v.1
    rw [← hev, b1, b2]
    set doneR := s.promptDone.filter (fun k => k.1 = e.1) with hdr
    have hdrnd : doneR.Nodup := List.Nodup.filter _ h.promptDone_nodup
    have hnames_nd : (doneR.map (fun k => k.2)).Nodup := by
      refine List.Nodup.map_on ?_ hdrnd
      intro x hx y hy hxy
      have hx1 := List.of_mem_filter hx
      have hy1 := List.of_mem_filter hy
      simp only [decide_eq_true_eq] at hx1 hy1
      exact Prod.ext_iff.mpr ⟨hx1.trans hy1.symm, hxy⟩
    have hnames_sub : ∀ a ∈ doneR.map (fun k => k.2), a ∈ c.selected := by
      intro a ha
      obtain ⟨x, hx, hxa⟩ := List.mem_map.mp ha
      exact hxa ▸ (h.promptDone_valid x (List.mem_of_mem_filter hx)).1
    calc (doneR.map (fun k => resLen c k.2)).sum
        = ((doneR.map (fun k => k.2)).map (fun n => resLen c n)).sum := by
          rw [List.map_map]
          rfl
      _ ≤ ((doneR.map (fun k => k.2)).map (fun n => nCases c n)).sum := by
          apply List.sum_le_sum
          intro n _
          unfold resLen
          by_cases hrn : runnable c n
          · rw [if_pos hrn]
          · rw [if_neg hrn]
            omega
      _ ≤ (c.selected.map (fun n => nCases c n)).sum :=
          sum_map_le_of_subset _ _ _ hnames_nd hnames_sub
      _ = roundTotalCfg c := rfl

/-- At an invariant state, the global counter never exceeds the configured
grand total `test_rounds * cases_per_round`. -/
theorem globalNode_le (c : RunCfg) (s : RunState) (h : EngineInv c s) :
    s.completedCases ≤ totalCasesCfg c := by
  rw [h.completed_eq]
  have hsub : ∀ x ∈ s.caseDone,
      x ∈ workItems c.prompts c.casesMap c.selected c.rounds := by
    intro x hx
    obtain ⟨hlook, hi⟩ := h.caseDone_keys x hx
    obtain ⟨e, he, hekey⟩ := exists_entry_of_lookupPrompt _ _ _ hlook
    obtain ⟨_, _, a3, a4, a5, a6, _⟩ := h.prompt_entries e he
    have he1 : e.1.1 = x.1 := by rw [hekey]
    have he2 : e.1.2 = x.2.1 := by rw [hekey]
    rw [he1] at a5 a6
    rw [he2] at a3 a4
    unfold workItems
    rw [List.mem_flatMap]
    refine ⟨x.1 - 1, List.mem_range.mpr (by omega), ?_⟩
    rw [List.mem_flatMap]
    refine ⟨x.2.1, a4, ?_⟩
    rw [if_pos (show promptRunnable c.prompts c.casesMap x.2.1 from a3), List.mem_map]
    refine ⟨x.2.2, List.mem_range.mpr hi, ?_⟩
    have hx1 : x.1 - 1 + 1 = x.1 := by omega
    rw [hx1]
  have hsp := List.Subperm.length_le
    (List.Nodup.subperm h.caseDone_nodup hsub)
  refine le_trans hsp ?_
  unfold workItems totalCasesCfg
  rw [List.length_flatMap]
  have hinner : ∀ i ∈ List.range c.rounds,
      (c.selected.flatMap (fun n =>
        if promptRunnable c.prompts c.casesMap n then
          (List.range ((c.casesMap.lookup n).getD []).length).map (fun j => (i + 1, n, j))
        else [])).length ≤ roundTotalCfg c := by
    intro i _
    rw [List.length_flatMap]
    unfold roundTotalCfg
    apply List.sum_le_sum
    intro n _
    simp only [Function.comp_apply]
    by_cases hrn : promptRunnable c.prompts c.casesMap n
    · rw [if_pos hrn]
      simp [nCases]
    · rw [if_neg hrn]
      simp
  calc ((List.range c.rounds).map _).sum
      ≤ ((List.range c.rounds).map (fun _ => roundTotalCfg c)).sum :=
        List.sum_le_sum hinner
    _ = c.rounds * roundTotalCfg c := sum_range_const _ _

/-- At an invariant state, the per-prompt completion counters sum exactly
to the global counter: both are incremented together inside one critical
section of `run_single_case`. -/
theorem sumPrompt_eq_global (c : RunCfg) (s : RunState) (h : EngineInv c s) :
    sumPromptCompleted s = s.completedCases := by
  unfold sumPromptCompleted
  rw [h.completed_eq]
  have hmap : s.promptProg.map (fun e => e.2.2) =
      s.promptProg.map (fun e => countCaseDone s.caseDone e.1.1 e.1.2) :=
    List.map_congr_left (fun e he => (h.prompt_entries e he).2.1)
  rw [hmap]
  have hcomp : s.promptProg.map (fun e => countCaseDone s.caseDone e.1.1 e.1.2) =
      (s.promptProg.map (fun e => e.1)).map (fun k => countCaseDone s.caseDone k.1 k.2) := by
    rw [List.map_map]
    rfl
  rw [hcomp]
  apply sum_countCaseDone_eq _ _ h.prompt_nodup_keys
  intro x hx
  exact (lookupPrompt_isSome_iff _ _ _).mp (h.caseDone_keys x hx).1

/-- At an invariant state, the per-round completion counters sum to at most
the global counter (a round counter is bumped only when a whole prompt's
batch finishes). -/
theorem sumRound_le_global (c : RunCfg) (s : RunState) (h : EngineInv c s) :
    sumRoundCompleted s ≤ s.completedCases := by
  unfold sumRoundCompleted
  rw [h.completed_eq]
  have hmap : s.roundProg.map (fun e => e.2.2) =
      s.roundProg.map (fun e =>
        ((s.promptDone.filter (fun k => k.1 = e.1)).map (fun k => resLen c k.2)).sum) :=
    List.map_congr_left (fun e he => (h.round_entries e he).2)
  rw [hmap]
  have hcomp : s.roundProg.map (fun e =>
      ((s.promptDone.filter (fun k => k.1 = e.1)).map (fun k => resLen c k.2)).sum) =
      (s.roundProg.map (fun e => e.1)).map (fun r =>
        ((s.promptDone.filter (fun k => k.1 = r)).map (fun k => resLen c k.2)).sum) := by
    rw [List.map_map]
    rfl
  rw [hcomp]
  rw [sum_filter_partition (fun k => resLen c k.2) _ s.promptDone h.round_nodup_keys ?_]
  · calc (s.promptDone.map (fun k => resLen c k.2)).sum
        ≤ (s.promptDone.map (fun k => countCaseDone s.caseDone k.1 k.2)).sum := by
          apply List.sum_le_sum
          intro k hk
          by_cases hrn : runnable c k.2
          · rw [show resLen c k.2 = nCases c k.2 from if_pos hrn]
            rw [h.promptDone_complete k hk hrn]
          · rw [show resLen c k.2 = 0 from if_neg hrn]
            omega
      _ ≤ s.caseDone.length := sum_countCaseDone_le _ _ h.promptDone_nodup
  · intro x hx
    exact (lookupRound_isSome_iff _ _).mp (h.promptDone_valid x hx).2

/-- Each fireable event leaves every completion counter (global, per round,
per prompt) non-decreasing. -/
theorem counters_monotone (c : RunCfg) (s : RunState) (ev : Ev) (s' : RunState)
    (hstep : applyEv c s ev = some s') :
    s.completedCases ≤ s'.completedCases ∧
    (∀ r, roundCompleted s r ≤ roundCompleted s' r) ∧
    (∀ r p, promptCompleted s r p ≤ promptCompleted s' r p) := by
  cases ev with
  | acquireRound r0 =>
    simp only [applyEv] at hstep
    split at hstep
    · cases hstep
      exact ⟨Nat.le_refl _, fun r => Nat.le_refl _, fun r p => Nat.le_refl _⟩
    · cases hstep
  | initRound r0 =>
    simp only [applyEv] at hstep
    split at hstep
    · rename_i hg
      cases hstep
      refine ⟨Nat.le_refl _, ?_, fun r p => Nat.le_refl _⟩
      intro r
      unfold roundCompleted
      rw [lookupRound_cons]
      by_cases hr : r0 = r
      · rw [if_pos hr]
        rw [← hr, hg.2.1]
        simp
      · rw [if_neg hr]
    · cases hstep
  | acquirePrompt r0 p0 =>
    simp only [applyEv] at hstep
    split at hstep
    · cases hstep
      exact ⟨Nat.le_refl _, fun r => Nat.le_refl _, fun r p => Nat.le_refl _⟩
    · cases hstep
  | initPrompt r0 p0 =>
    simp only [applyEv] at hstep
    split at hstep
    · rename_i hg
      cases hstep
      refine ⟨Nat.le_refl _, fun r => Nat.le_refl _, ?_⟩
      intro r p
      unfold promptCompleted
      rw [lookupPrompt_cons]
      by_cases hr : ((r0, p0) : Nat × String) = (r, p)
      · rw [if_pos hr]
        have hr1 : r0 = r := congrArg Prod.fst hr
        have hr2 : p0 = p := congrArg Prod.snd hr
        rw [← hr1, ← hr2, hg.2.2]
        simp
      · rw [if_neg hr]
    · cases hstep
  | startCase r0 p0 i0 =>
    simp only [applyEv] at hstep
    split at hstep
    · cases hstep
      exact ⟨Nat.le_refl _, fun r => Nat.le_refl _, fun r p => Nat.le_refl _⟩
    · cases hstep
  | doneCase r0 p0 i0 =>
    simp only [applyEv] at hstep
    split at hstep
    · cases hstep
      refine ⟨Nat.le_succ _, fun r => Nat.le_refl _, ?_⟩
      intro r p
      unfold promptCompleted
      rw [lookupPrompt_bump]
      cases hlp : lookupPrompt s.promptProg r p with
      | none => simp
      | some v =>
        by_cases hr : ((r, p) : Nat × String) = (r0, p0)
        · simp [hr]
        · simp [hr]
    · cases hstep
  | donePrompt r0 p0 =>
    simp only [applyEv] at hstep
    split at hstep
    · cases hstep
      refine ⟨Nat.le_refl _, ?_, fun r p => Nat.le_refl _⟩
      intro r
      unfold roundCompleted
      rw [lookupRound_bump]
      cases hlr : lookupRound s.roundProg r with
      | none => simp
      | some v =>
        by_cases hr : r = r0
        · simp [hr]
        · simp [hr]
    · cases hstep
  | releaseRound r0 =>
    simp only [applyEv] at hstep
    split at hstep
    · cases hstep
      exact ⟨Nat.le_refl _, fun r => Nat.le_refl _, fun r p => Nat.le_refl _⟩
    · cases hstep

/-! ### Result assembly facts -/

/-- For a runnable prompt, `run_test` maps the enumerated case list. -/
theorem runTest_eq_map (prompts : List PromptConfig)
    (casesMap : List (String × List TestCase)) (oracle : Oracle) (n : String)
    (r : Nat) (cfg : PromptConfig)
    (hf : prompts.find? (fun p => p.name = n) = some cfg)
    (hne : ¬((casesMap.lookup n).getD []).isEmpty = true) :
    runTest prompts casesMap oracle n r =
      (((casesMap.lookup n).getD []).enum).map
        (fun ic => runSingleCase n cfg ic.2 (oracle r n ic.1)) := by
  unfold runTest
  rw [hf]
  simp only [if_neg hne]

/-- For a runnable prompt, `run_test` yields exactly one result per case. -/
theorem runTest_length (prompts : List PromptConfig)
    (casesMap : List (String × List TestCase)) (oracle : Oracle) (n : String)
    (r : Nat) (h : promptRunnable prompts casesMap n) :
    (runTest prompts casesMap oracle n r).length =
      ((casesMap.lookup n).getD []).length := by
  obtain ⟨hfind, hne⟩ := h
  cases hf : prompts.find? (fun p => p.name = n) with
  | none =>
    rw [hf] at hfind
    simp at hfind
  | some cfg =>
    rw [runTest_eq_map prompts casesMap oracle n r cfg hf hne]
    rw [List.length_map, List.enum_length]

/-- A missing configuration or an empty case list yields no results. -/
theorem runTest_eq_nil (prompts : List PromptConfig)
    (casesMap : List (String × List TestCase)) (oracle : Oracle) (n : String)
    (r : Nat) (h : ¬ promptRunnable prompts casesMap n) :
    runTest prompts casesMap oracle n r = [] := by
  unfold runTest
  cases hf : prompts.find? (fun p => p.name = n) with
  | none => rfl
  | some cfg =>
    simp only
    by_cases hne : ((casesMap.lookup n).getD []).isEmpty = true
    · rw [if_pos hne]
    · exact absurd ⟨by rw [hf]; rfl, hne⟩ h

/-- For a runnable prompt, `run_test` yields a nonempty result list. -/
theorem runTest_ne_nil (prompts : List PromptConfig)
    (casesMap : List (String × List TestCase)) (oracle : Oracle) (n : String)
    (r : Nat) (h : promptRunnable prompts casesMap n) :
    ¬(runTest prompts casesMap oracle n r).isEmpty = true := by
  rw [List.isEmpty_iff_length_eq_zero, runTest_length prompts casesMap oracle n r h]
  intro hlen
  exact h.2 (by rw [List.isEmpty_iff_length_eq_zero]; exact hlen)

/-- The dict-building fold of `run_all_tests` over distinct prompt names
keeps, in order, exactly the nonempty result lists. -/
theorem foldl_dictInsert_eq (f : String → List TestResult) (l : List String)
    (hnd : l.Nodup) (acc : List (String × List TestResult))
    (hdisj : ∀ n ∈ l, ∀ e ∈ acc, ¬ e.1 = n) :
    (l.map (fun n => (n, f n))).foldl
        (fun acc nr => if nr.2.isEmpty then acc else dictInsert acc nr.1 nr.2) acc =
      acc ++ (l.filter (fun n => !(f n).isEmpty)).map (fun n => (n, f n)) := by
  induction l generalizing acc with
  | nil => simp
  | cons x t ih =>
    have hnd' := List.nodup_cons.mp hnd
    rw [List.map_cons, List.foldl_cons, List.filter_cons]
    by_cases hx : (f x).isEmpty = true
    · rw [if_pos hx]
      rw [show (!(f x).isEmpty) = false by simp [hx]]
      simp only [Bool.false_eq_true, if_false]
      exact ih hnd'.2 acc (fun n hn e he => hdisj n (List.mem_cons_of_mem x hn) e he)
    · rw [if_neg hx]
      rw [show (!(f x).isEmpty) = true by simp [hx]]
      simp only [if_true]
      have hins : dictInsert acc x (f x) = acc ++ [(x, f x)] := by
        unfold dictInsert
        rw [if_neg ?_]
        intro hany
        obtain ⟨e, he, hex⟩ := List.any_eq_true.mp hany
        exact hdisj x (List.mem_cons_self x t) e he (by simpa using hex)
      rw [hins]
      rw [ih hnd'.2 (acc ++ [(x, f x)]) ?_]
      · rw [List.map_cons, List.append_assoc]
        rfl
      · intro n hn e he
        rcases List.mem_append.mp he with h' | h'
        · exact hdisj n (List.mem_cons_of_mem x hn) e h'
        · have hex : e = (x, f x) := by simpa using h'
          rw [hex]
          intro hcontra
          have hxn : x = n := hcontra
          exact hnd'.1 (by rw [hxn]; exact hn)

/-- `run_all_tests` over distinct selected names is the in-order mapping of
each runnable prompt to its `run_test` results; non-runnable prompts are
omitted. -/
theorem runAllTests_eq (prompts : List PromptConfig)
    (casesMap : List (String × List TestCase)) (oracle : Oracle)
    (selected : List String) (r : Nat) (hnd : selected.Nodup) :
    runAllTests prompts casesMap oracle selected r =
      (selected.filter (fun n => decide (promptRunnable prompts casesMap n))).map
        (fun n => (n, runTest prompts casesMap oracle n r)) := by
  unfold runAllTests
  by_cases hz : (selected.map (fun n => ((casesMap.lookup n).getD []).length)).sum = 0
  · rw [if_pos hz]
    symm
    rw [List.map_eq_nil_iff, List.filter_eq_nil_iff]
    intro n hn
    simp only [decide_eq_true_eq]
    intro hr
    have hzero : ((casesMap.lookup n).getD []).length = 0 := by
      by_contra hlen
      have hmem : ((casesMap.lookup n).getD []).length ∈
          selected.map (fun n => ((casesMap.lookup n).getD []).length) :=
        List.mem_map_of_mem _ hn
      have hpos := List.sum_eq_zero_iff.mp hz _ hmem
      exact hlen hpos
    exact hr.2 (by rw [List.isEmpty_iff_length_eq_zero]; exact hzero)
  · rw [if_neg hz]
    rw [foldl_dictInsert_eq (fun n => runTest prompts casesMap oracle n r) selected hnd []
      (by simp)]
    rw [List.nil_append]
    congr 1
    apply List.filter_congr
    intro n _
    by_cases hr : promptRunnable prompts casesMap n
    · rw [show ((runTest prompts casesMap oracle n r).isEmpty) = false from
        Bool.not_eq_true _ ▸ (by simpa using runTest_ne_nil prompts casesMap oracle n r hr)]
      simp [hr]
    · rw [runTest_eq_nil prompts casesMap oracle n r hr]
      simp [hr]

theorem filter_flatMap {α β : Type} (l : List α) (p : α → Bool) (f : α → List β) :
    (l.filter p).flatMap f = l.flatMap (fun a => if p a then f a else []) := by
  induction l with
  | nil => rfl
  | cons x t ih =>
    rw [List.filter_cons]
    by_cases hp : p x = true
    · rw [if_pos hp, List.flatMap_cons, List.flatMap_cons, if_pos hp, ih]
    · rw [if_neg hp, List.flatMap_cons, if_neg hp, ih]
      simp

/-- The addresses of the collected CaseResults are exactly the generated
WorkItems, for every oracle: every case of every runnable selected prompt
contributes exactly one result per round, in order. -/
theorem resultKeys_runAllRounds (prompts : List PromptConfig)
    (casesMap : List (String × List TestCase)) (oracle : Oracle)
    (selected : List String) (rounds : Nat) (hnd : selected.Nodup) :
    resultKeys (runAllRounds prompts casesMap oracle selected rounds) =
      workItems prompts casesMap selected rounds := by
  unfold resultKeys runAllRounds workItems
  rw [List.flatMap_map]
  apply List.flatMap_congr
  intro i _
  simp only
  rw [runAllTests_eq prompts casesMap oracle selected (i + 1) hnd]
  rw [List.flatMap_map]
  rw [filter_flatMap]
  apply List.flatMap_congr
  intro n _
  by_cases hr : promptRunnable prompts casesMap n
  · rw [if_pos (by simpa using hr), if_pos hr]
    rw [runTest_length prompts casesMap oracle n (i + 1) hr]
  · rw [if_neg (by simpa using hr), if_neg hr]

/-- The generated WorkItem list is duplicate-free when the selection is. -/
theorem workItems_nodup (prompts : List PromptConfig)
    (casesMap : List (String × List TestCase)) (selected : List String)
    (rounds : Nat) (hnd : selected.Nodup) :
    (workItems prompts casesMap selected rounds).Nodup := by
  unfold workItems
  rw [List.nodup_flatMap]
  constructor
  · intro i _
    rw [List.nodup_flatMap]
    constructor
    · intro n _
      by_cases hr : promptRunnable prompts casesMap n
      · rw [if_pos hr]
        refine List.Nodup.map ?_ (List.nodup_range _)
        intro a b hab
        exact congrArg (fun x => x.2.2) hab
      · rw [if_neg hr]
        exact List.nodup_nil
    · refine List.Pairwise.imp ?_ hnd
      intro a b hab x hxa hxb
      have hxa' : x ∈ (if promptRunnable prompts casesMap a then
          (List.range ((casesMap.lookup a).getD []).length).map (fun j => (i + 1, a, j))
        else []) := hxa
      have hxb' : x ∈ (if promptRunnable prompts casesMap b then
          (List.range ((casesMap.lookup b).getD []).length).map (fun j => (i + 1, b, j))
        else []) := hxb
      have hka : x.2.1 = a := by
        by_cases hr : promptRunnable prompts casesMap a
        · rw [if_pos hr] at hxa'
          obtain ⟨j, _, hj⟩ := List.mem_map.mp hxa'
          rw [← hj]
        · rw [if_neg hr] at hxa'
          cases hxa'
      have hkb : x.2.1 = b := by
        by_cases hr : promptRunnable prompts casesMap b
        · rw [if_pos hr] at hxb'
          obtain ⟨j, _, hj⟩ := List.mem_map.mp hxb'
          rw [← hj]
        · rw [if_neg hr] at hxb'
          cases hxb'
      exact hab (hka ▸ hkb)
  · refine List.Pairwise.imp ?_ (List.pairwise_lt_range rounds)
    intro a b hab x hxa hxb
    have hka : x.1 = a + 1 := by
      obtain ⟨n, _, hn⟩ := List.mem_flatMap.mp hxa
      by_cases hr : promptRunnable prompts casesMap n
      · rw [if_pos hr] at hn
        obtain ⟨j, _, hj⟩ := List.mem_map.mp hn
        rw [← hj]
      · rw [if_neg hr] at hn
        cases hn
    have hkb : x.1 = b + 1 := by
      obtain ⟨n, _, hn⟩ := List.mem_flatMap.mp hxb
      by_cases hr : promptRunnable prompts casesMap n
      · rw [if_pos hr] at hn
        obtain ⟨j, _, hj⟩ := List.mem_map.mp hn
        rw [← hj]
      · rw [if_neg hr] at hn
        cases hn
    omega

/-! ## Concrete instances used by witnesses and counterexamples -/

def cfgA : PromptConfig := ⟨"A", "openai", "gpt", "Hello"⟩

def cfgB : PromptConfig := ⟨"B", "anthropic", "claude", "Hi"⟩

def caseX : TestCase := ⟨"c1", "case1", none, "content", none, none⟩

def caseY : TestCase := ⟨"c2", "case2", none, "content2", none, none⟩

def demoCasesMap : List (String × List TestCase) := [("A", [caseX, caseY]), ("B", [caseX])]

def demoOracle : Oracle := fun _ _ _ => Except.error "fail"

def cfgC2 : RunCfg :=
  ⟨[cfgA, cfgB], [("A", [caseX]), ("B", [caseX])], ["A", "B"], 1, 1, 2, 1⟩

def evsC2 : List Ev :=
  [.acquireRound 1, .initRound 1, .acquirePrompt 1 "A", .acquirePrompt 1 "B",
   .initPrompt 1 "A", .initPrompt 1 "B", .startCase 1 "A" 0, .startCase 1 "B" 0]

def sC2 : RunState :=
  ⟨0, [(1, 2, 0)], [((1, "B"), 1, 0), ((1, "A"), 1, 0)], [1], [],
   [(1, "B"), (1, "A")], [], [(1, "B", 0), (1, "A", 0)], []⟩

def cfgC5 : RunCfg := ⟨[cfgA], [("A", [caseX])], ["A"], 1, 1, 1, 1⟩

def evsC5 : List Ev :=
  [.acquireRound 1, .initRound 1, .acquirePrompt 1 "A", .initPrompt 1 "A",
   .startCase 1 "A" 0, .doneCase 1 "A" 0]

def sC5 : RunState :=
  ⟨1, [(1, 1, 0)], [((1, "A"), 1, 1)], [1], [], [(1, "A")], [], [], [(1, "A", 0)]⟩

/-! ## Claim C1 -/

/-- C1: for every selection of prompts, cases and round count (and every
invocation oracle, i.e. whether each invocation succeeds or fails), the
`(round, promptName, caseIndex)` addresses of the CaseResults collected
into the RunResult are exactly the generated WorkItems — equal as ordered
lists, hence equal in number, with no omission — and the WorkItem list is
duplicate-free, so no address receives two results. -/
theorem C1_results_match_workItems (prompts : List PromptConfig)
    (casesMap : List (String × List TestCase)) (oracle : Oracle)
    (selected : List String) (rounds : Nat) (hnd : selected.Nodup) :
    resultKeys (runAllRounds prompts casesMap oracle selected rounds) =
      workItems prompts casesMap selected rounds ∧
    (workItems prompts casesMap selected rounds).Nodup :=
  ⟨resultKeys_runAllRounds prompts casesMap oracle selected rounds hnd,
   workItems_nodup prompts casesMap selected rounds hnd⟩

theorem C1_results_match_workItems_witness :
    (["A", "B"] : List String).Nodup ∧
    resultKeys (runAllRounds [cfgA, cfgB] demoCasesMap demoOracle ["A", "B"] 2) =
      workItems [cfgA, cfgB] demoCasesMap ["A", "B"] 2 :=
  ⟨by decide,
   (C1_results_match_workItems [cfgA, cfgB] demoCasesMap demoOracle ["A", "B"] 2
     (by decide)).1⟩

/-! ## Claim C4 -/

/-- The always-failing Model Invocation Service. -/
def failOracle (e : String) : Oracle := fun _ _ _ => Except.error e

/-- C4: when every model invocation raises, the run still completes and
assembles the full RunResult: every WorkItem yields exactly one CaseResult
(the address lists still agree), and each of those results is a failed one
carrying the error in place of output, an error-only tokens mapping and
zero elapsed time.  (`runAllRounds` is a total function into the RunResult
type — no unit failure escapes `run_single_case`'s handler to abort a
prompt, a round or the run.) -/
theorem C4_all_failures_still_complete (prompts : List PromptConfig)
    (casesMap : List (String × List TestCase)) (selected : List String)
    (rounds : Nat) (e : String) (hnd : selected.Nodup) :
    resultKeys (runAllRounds prompts casesMap (failOracle e) selected rounds) =
      workItems prompts casesMap selected rounds ∧
    ∀ tr ∈ allResults (runAllRounds prompts casesMap (failOracle e) selected rounds),
      tr.output_content = errMark ++ e ∧ tr.tokens = [("error", e)] ∧
      tr.elapsed_time = 0 := by
  refine ⟨resultKeys_runAllRounds prompts casesMap (failOracle e) selected rounds hnd, ?_⟩
  intro tr htr
  unfold allResults at htr
  obtain ⟨rr, hrr, htr2⟩ := List.mem_flatMap.mp htr
  obtain ⟨nr, hnr, htr3⟩ := List.mem_flatMap.mp htr2
  unfold runAllRounds at hrr
  obtain ⟨i, _, hrr2⟩ := List.mem_map.mp hrr
  rw [← hrr2] at hnr
  have hnr' : nr ∈ runAllTests prompts casesMap (failOracle e) selected (i + 1) := hnr
  rw [runAllTests_eq prompts casesMap (failOracle e) selected (i + 1) hnd] at hnr'
  obtain ⟨n, hn, hnr2⟩ := List.mem_map.mp hnr'
  have hrun : promptRunnable prompts casesMap n := by
    have := List.of_mem_filter hn
    simpa using this
  obtain ⟨cfg, hcfg⟩ := Option.isSome_iff_exists.mp hrun.1
  rw [← hnr2] at htr3
  have htr3' : tr ∈ runTest prompts casesMap (failOracle e) n (i + 1) := htr3
  rw [runTest_eq_map prompts casesMap (failOracle e) n (i + 1) cfg hcfg hrun.2] at htr3'
  obtain ⟨ic, _, htr4⟩ := List.mem_map.mp htr3'
  rw [← htr4]
  exact ⟨rfl, rfl, rfl⟩

theorem C4_all_failures_still_complete_witness :
    (["A", "B"] : List String).Nodup ∧
    resultKeys (runAllRounds [cfgA, cfgB] demoCasesMap (failOracle "boom") ["A", "B"] 1) =
      workItems [cfgA, cfgB] demoCasesMap ["A", "B"] 1 :=
  ⟨by decide,
   (C4_all_failures_still_complete [cfgA, cfgB] demoCasesMap ["A", "B"] 1 "boom"
     (by decide)).1⟩

/-! ## Claim C2 -/

/-- C2 as stated: across ALL prompts and rounds combined, the number of
simultaneously held case-semaphore slots never exceeds the configured case
concurrency, for every configured value ≥ 1 — i.e. the case gate would be
a single pool-wide resource. -/
def caseGatePoolwideClaim : Prop :=
  ∀ c : RunCfg, 1 ≤ c.maxCaseConcurrency →
    ∀ s : RunState, Reachable c s → totalRunning s ≤ c.maxCaseConcurrency

/-- C2 is false on the code: `run_test` creates a fresh
`asyncio.Semaphore(max_case_concurrency)` per (round, prompt) invocation
(tester.py line 315), so two prompts admitted concurrently each run up to
the limit.  With limit 1 and two selected prompts, a reachable state holds
2 slots. -/
theorem C2_counterexample_poolwide : ¬ caseGatePoolwideClaim := by
  intro hclaim
  have hreach : Reachable cfgC2 sC2 := ⟨evsC2, by rfl⟩
  have hle := hclaim cfgC2 (by decide) sC2 hreach
  rw [show totalRunning sC2 = 2 from rfl,
    show cfgC2.maxCaseConcurrency = 1 from rfl] at hle
  omega

/-- C2 amended: the case gate bounds concurrent cases *per prompt per
round* — within each `run_test` invocation the number of simultaneously
held case slots never exceeds `max_case_concurrency`, at every reachable
state — but it is not shared across prompts or rounds. -/
theorem C2_case_gate_per_prompt (c : RunCfg) (s : RunState)
    (h : Reachable c s) (r : Nat) (p : String) :
    countRunning s r p ≤ c.maxCaseConcurrency :=
  (engineInv_reachable c s h).running_bound r p

theorem C2_case_gate_per_prompt_witness :
    Reachable cfgC2 sC2 ∧ countRunning sC2 1 "A" ≤ cfgC2.maxCaseConcurrency :=
  ⟨⟨evsC2, by rfl⟩, C2_case_gate_per_prompt cfgC2 sC2 ⟨evsC2, by rfl⟩ 1 "A"⟩

/-! ## Claim C5 -/

/-- C5 as stated: at every observable point the global counter, the summed
per-round completed counts and the summed per-prompt completed counts all
agree. -/
def countersNoDriftClaim : Prop :=
  ∀ c : RunCfg, ∀ s : RunState, Reachable c s →
    sumPromptCompleted s = globalCompleted s ∧
    sumRoundCompleted s = globalCompleted s

/-- C5 is false on the code for the round level: a round's `completed` is
bumped only when a whole prompt's batch finishes
(`run_prompt_with_semaphore`, tester.py lines 355-359), so after the first
case of a prompt completes, the global counter is 1 while the round
counters still sum to 0. -/
theorem C5_counterexample_round_drift : ¬ countersNoDriftClaim := by
  intro hclaim
  have hreach : Reachable cfgC5 sC5 := ⟨evsC5, by rfl⟩
  have h := (hclaim cfgC5 sC5 hreach).2
  rw [show sumRoundCompleted sC5 = 0 from rfl,
    show globalCompleted sC5 = 1 from rfl] at h
  cases h

/-- C5 amended: at every reachable state the per-prompt completed counters
sum exactly to the global counter (they are incremented in the same
critical section), while the per-round counters sum to at most the global
counter, lagging until each prompt's batch is folded in. -/
theorem C5_prompt_sum_equals_global (c : RunCfg) (s : RunState)
    (h : Reachable c s) :
    sumPromptCompleted s = globalCompleted s ∧
    sumRoundCompleted s ≤ globalCompleted s :=
  ⟨sumPrompt_eq_global c s (engineInv_reachable c s h),
   sumRound_le_global c s (engineInv_reachable c s h)⟩

theorem C5_prompt_sum_equals_global_witness :
    Reachable cfgC5 sC5 ∧
    (sumPromptCompleted sC5 = globalCompleted sC5 ∧
     sumRoundCompleted sC5 ≤ globalCompleted sC5) :=
  ⟨⟨evsC5, by rfl⟩, C5_prompt_sum_equals_global cfgC5 sC5 ⟨evsC5, by rfl⟩⟩

/-! ## Claim C6 -/

/-- C6: at every reachable state, the completed counter at every progress
node (global, per round, per prompt) never exceeds the total recorded at
that node, and every fireable event leaves every completed counter
non-decreasing — so along any run the counters are monotone and bounded by
their totals. -/
theorem C6_counters_monotone_bounded (c : RunCfg) (s : RunState)
    (h : Reachable c s) :
    (globalCompleted s ≤ totalCasesCfg c ∧
     (∀ r, roundCompleted s r ≤ roundTotalAt s r) ∧
     (∀ r p, promptCompleted s r p ≤ promptTotalAt s r p)) ∧
    (∀ ev s', applyEv c s ev = some s' →
      globalCompleted s ≤ globalCompleted s' ∧
      (∀ r, roundCompleted s r ≤ roundCompleted s' r) ∧
      (∀ r p, promptCompleted s r p ≤ promptCompleted s' r p)) := by
  have hinv := engineInv_reachable c s h
  refine ⟨⟨globalNode_le c s hinv, fun r => roundNode_le c s hinv r,
    fun r p => promptNode_le c s hinv r p⟩, ?_⟩
  intro ev s' hstep
  exact counters_monotone c s ev s' hstep

theorem C6_counters_monotone_bounded_witness :
    Reachable cfgC5 sC5 ∧ globalCompleted sC5 ≤ totalCasesCfg cfgC5 :=
  ⟨⟨evsC5, by rfl⟩,
   (C6_counters_monotone_bounded cfgC5 sC5 ⟨evsC5, by rfl⟩).1.1⟩

/-! ## Claim C10 -/

theorem mem_dictInsert {β : Type} (acc : List (String × β)) (k : String) (v : β)
    (e : String × β) (he : e ∈ dictInsert acc k v) : e = (k, v) ∨ e ∈ acc := by
  unfold dictInsert at he
  by_cases hany : acc.any (fun e => e.1 = k) = true
  · rw [if_pos hany] at he
    obtain ⟨e0, he0, heq⟩ := List.mem_map.mp he
    by_cases hk : e0.1 = k
    · rw [if_pos hk] at heq
      exact Or.inl heq.symm
    · rw [if_neg hk] at heq
      exact Or.inr (heq ▸ he0)
  · rw [if_neg hany] at he
    rcases List.mem_append.mp he with h' | h'
    · exact Or.inr h'
    · exact Or.inl (by simpa using h')

theorem foldl_dictInsert_values_nonempty (l : List (String × List TestResult))
    (acc : List (String × List TestResult))
    (hacc : ∀ e ∈ acc, ¬e.2.isEmpty = true) :
    ∀ e ∈ l.foldl
        (fun acc nr => if nr.2.isEmpty then acc else dictInsert acc nr.1 nr.2) acc,
      ¬e.2.isEmpty = true := by
  induction l generalizing acc with
  | nil => exact hacc
  | cons nr t ih =>
    rw [List.foldl_cons]
    by_cases hx : nr.2.isEmpty = true
    · rw [if_pos hx]
      exact ih acc hacc
    · rw [if_neg hx]
      refine ih (dictInsert acc nr.1 nr.2) ?_
      intro e he
      rcases mem_dictInsert acc nr.1 nr.2 e he with h' | h'
      · rw [h']
        exact hx
      · exact hacc e h'

theorem foldl_dictInsert_keys_excluded (l : List (String × List TestResult))
    (acc : List (String × List TestResult)) (n : String)
    (hacc : ∀ e ∈ acc, ¬e.1 = n)
    (hl : ∀ nr ∈ l, nr.1 = n → nr.2.isEmpty = true) :
    ∀ e ∈ l.foldl
        (fun acc nr => if nr.2.isEmpty then acc else dictInsert acc nr.1 nr.2) acc,
      ¬e.1 = n := by
  induction l generalizing acc with
  | nil => exact hacc
  | cons nr t ih =>
    rw [List.foldl_cons]
    by_cases hx : nr.2.isEmpty = true
    · rw [if_pos hx]
      exact ih acc hacc (fun x hx' => hl x (List.mem_cons_of_mem nr hx'))
    · rw [if_neg hx]
      refine ih (dictInsert acc nr.1 nr.2) ?_
        (fun x hx' => hl x (List.mem_cons_of_mem nr hx'))
      intro e he
      rcases mem_dictInsert acc nr.1 nr.2 e he with h' | h'
      · rw [h']
        intro hkn
        exact hx (hl nr (List.mem_cons_self nr t) hkn)
      · exact hacc e h'

/-- C10: every prompt entry present in a round's RunResult mapping holds a
nonempty result sequence, and a selected prompt with no matching
configuration or zero cases is omitted from the mapping entirely. -/
theorem C10_entries_nonempty_or_omitted (prompts : List PromptConfig)
    (casesMap : List (String × List TestCase)) (oracle : Oracle)
    (selected : List String) (r : Nat) :
    (∀ nr ∈ runAllTests prompts casesMap oracle selected r, ¬nr.2.isEmpty = true) ∧
    (∀ n, ¬ promptRunnable prompts casesMap n →
      ∀ nr ∈ runAllTests prompts casesMap oracle selected r, ¬nr.1 = n) := by
  unfold runAllTests
  by_cases hz : (selected.map (fun n => ((casesMap.lookup n).getD []).length)).sum = 0
  · rw [if_pos hz]
    exact ⟨fun nr h => absurd h (List.not_mem_nil nr),
      fun n _ nr h => absurd h (List.not_mem_nil nr)⟩
  · rw [if_neg hz]
    constructor
    · exact foldl_dictInsert_values_nonempty _ [] (by simp)
    · intro n hn
      refine foldl_dictInsert_keys_excluded _ [] n (by simp) ?_
      intro nr hnr hkey
      obtain ⟨n', _, hn'⟩ := List.mem_map.mp hnr
      have h1 : nr.2 = runTest prompts casesMap oracle n' r := by rw [← hn']
      have h2 : n' = n := by rw [← hkey, ← hn']
      rw [h1, h2, runTest_eq_nil prompts casesMap oracle n r hn]
      rfl

theorem C10_entries_nonempty_or_omitted_witness :
    ¬ promptRunnable [cfgA] [("A", [caseX])] "B" ∧
    ∀ nr ∈ runAllTests [cfgA] [("A", [caseX])] demoOracle ["A", "B"] 1,
      ¬nr.1 = "B" :=
  ⟨by decide,
   (C10_entries_nonempty_or_omitted [cfgA] [("A", [caseX])] demoOracle
     ["A", "B"] 1).2 "B" (by decide)⟩

/-! ## Claim C3 -/

/-- C3 as stated: the report saved on interruption would contain exactly
the CaseResults of the WorkItems completed before cancellation (e.g. 3 of
10). -/
def partialReportKeepsResultsClaim : Prop :=
  ∀ (completed total : Nat) (t : String),
    reportCaseCount (interruptReport completed total t) = completed

/-- C3 is false on the code: the `KeyboardInterrupt` handler (tester.py
lines 552-568) does not collect the finished CaseResults at all — it
builds a fresh record holding only the counters and a note ("为简化处理，
我们创建一个最基础的结果记录") — so with 3 completed cases the saved
partial report contains 0 CaseResults, not 3. -/
theorem C3_counterexample_no_results : ¬ partialReportKeepsResultsClaim := by
  intro hclaim
  have h := hclaim 3 10 "2025-01-01 00:00:00"
  rw [show reportCaseCount (interruptReport 3 10 "2025-01-01 00:00:00") = 0 from rfl] at h
  cases h

/-- C3 amended: the partial report saved on interruption contains no
CaseResults at all; it records only the global completed/total counters,
the interruption time and a fixed partial-result note, and it is written
under the distinct `interrupted_test` filename prefix, which can never
collide with the default `test_results` prefix of a complete report. -/
theorem C3_partial_report_summary_only (completed total : Nat) (t : String) :
    reportCaseCount (interruptReport completed total t) = 0 ∧
    interruptReport completed total t =
      [("部分测试结果",
        [("info", ReportEntry.info completed total t "此结果不完整，测试被用户中断")])] ∧
    ¬ interruptedPrefixStr = completePrefixStr ∧
    ∀ ts : String, ¬ htmlFileName interruptedPrefixStr ts =
      htmlFileName completePrefixStr ts := by
  refine ⟨rfl, rfl, by decide, ?_⟩
  intro ts heq
  have hlen := congrArg String.length heq
  rw [htmlFileName, htmlFileName] at hlen
  simp only [String.length_append] at hlen
  rw [show interruptedPrefixStr.length = 16 from rfl,
    show completePrefixStr.length = 12 from rfl] at hlen
  omega

theorem C3_partial_report_summary_only_witness :
    reportCaseCount (interruptReport 3 10 "2025-01-01 00:00:00") = 0 ∧
    ¬ htmlFileName interruptedPrefixStr "20250101_000000" =
      htmlFileName completePrefixStr "20250101_000000" :=
  ⟨(C3_partial_report_summary_only 3 10 "2025-01-01 00:00:00").1,
   (C3_partial_report_summary_only 3 10 "2025-01-01 00:00:00").2.2.2 "20250101_000000"⟩

/-! ## Claim C8 -/

/-- C8: the live console render is throttled by a skip-if-too-soon guard
with a fixed 200 ms minimum interval: an attempt strictly inside the
interval is skipped with no state change (in particular the throttle clock
is untouched), and an attempt at or past the interval repaints and records
the repaint time. -/
theorem C8_render_throttle (now : ℚ) (s : ConsoleState) :
    consoleUpdateInterval = 200 / 1000 ∧
    (now - s.lastConsoleUpdate < consoleUpdateInterval →
      updateConsoleOutput now s = (false, s)) ∧
    (¬ now - s.lastConsoleUpdate < consoleUpdateInterval →
      updateConsoleOutput now s = (true, { lastConsoleUpdate := now })) := by
  refine ⟨by norm_num [consoleUpdateInterval], ?_, ?_⟩
  · intro h
    rw [updateConsoleOutput, if_pos h]
  · intro h
    rw [updateConsoleOutput, if_neg h]

theorem C8_render_throttle_witness :
    ((1 : ℚ) - (0 : ℚ) < consoleUpdateInterval → False) ∧
    updateConsoleOutput 1 ⟨0⟩ = (true, ⟨1⟩) :=
  ⟨fun h => by norm_num [consoleUpdateInterval] at h,
   (C8_render_throttle 1 ⟨0⟩).2.2 (by norm_num [consoleUpdateInterval])⟩

/-! ## Claim C9 -/

/-- C9: an exception that escapes the API-call layer (uninitialized client
or unsupported vendor, the `Except.error` outcomes of `call_api`) is
recorded by `run_single_case` as a failed CaseResult with elapsed time
exactly 0, a tokens mapping holding only the error, the error-marked
output, and the RAW template as the processed prompt; whereas a provider
error caught inside `call_openai_api` is returned through the success
path, so the recorded result keeps the real measured elapsed time. -/
theorem C9_escaped_vs_caught_errors (promptName : String) (cfg : PromptConfig)
    (case : TestCase) (e : String) (t : ℚ) (b1 b2 : Bool)
    (prov : Except String (String × List (String × String))) :
    ((runSingleCase promptName cfg case (Except.error e)).elapsed_time = 0 ∧
     (runSingleCase promptName cfg case (Except.error e)).tokens = [("error", e)] ∧
     (runSingleCase promptName cfg case (Except.error e)).output_content =
       errMark ++ e ∧
     (runSingleCase promptName cfg case (Except.error e)).processed_prompt =
       cfg.prompt) ∧
    (callOpenaiApi cfg case (Except.error e) t =
      (errMark ++ e, t, [("error", e)], cfg.prompt) ∧
     (runSingleCase promptName cfg case
        (Except.ok (callOpenaiApi cfg case (Except.error e) t))).elapsed_time = t) ∧
    (¬ strLower cfg.vendor = "openai" → ¬ strLower cfg.vendor = "anthropic" →
      callApi cfg case b1 b2 prov t =
        Except.error ("不支持的提供商: " ++ cfg.vendor)) := by
  refine ⟨⟨rfl, rfl, rfl, rfl⟩, ⟨rfl, rfl⟩, ?_⟩
  intro h1 h2
  rw [callApi, if_neg h1, if_neg h2]

theorem C9_escaped_vs_caught_errors_witness :
    ¬ (strLower "weird" = "openai") ∧ ¬ (strLower "weird" = "anthropic") ∧
    callApi ⟨"A", "weird", "m", "T"⟩ caseX true true
        (Except.error "oops") (3 : ℚ) =
      Except.error ("不支持的提供商: " ++ "weird") :=
  ⟨by decide, by decide,
   (C9_escaped_vs_caught_errors "A" ⟨"A", "weird", "m", "T"⟩ caseX "oops" 3 true true
     (Except.error "oops")).2.2 (by decide) (by decide)⟩

/-! ## Claim C7: template substitution

To state what `process_prompt` does to a template, templates are viewed as
an alternation of brace-free literal text and `{{word}}` placeholders; the
theorems relate the character-level `findParams`/`replaceAll` pipeline
translated from the source to this segment view. -/

/-- A template segment: literal text or a `{{w}}` placeholder. -/
inductive Seg
  | lit (s : List Char)
  | par (w : List Char)
deriving DecidableEq

def renderSeg : Seg → List Char
  | .lit s => s
  | .par w => ph w

def renderTemplate (segs : List Seg) : List Char :=
  (segs.map renderSeg).flatten

/-- Literal segments carry no brace characters; placeholder names are
nonempty words. -/
def goodSeg : Seg → Prop
  | .lit s => ∀ c ∈ s, ¬c = lbrace ∧ ¬c = rbrace
  | .par w => ¬w = [] ∧ ∀ c ∈ w, isWordChar c = true

/-- The parameter names of a segment list, in order. -/
def segParams : List Seg → List (List Char)
  | [] => []
  | .lit _ :: t => segParams t
  | .par w :: t => w :: segParams t

/-- The intended substitution: placeholders found in `args` are replaced
by their value, missing ones stay. -/
def substSeg (args : List (List Char × List Char)) : Seg → List Char
  | .lit s => s
  | .par w =>
    match alookup w args with
    | some v => v
    | none => ph w

/-- A chunk of a partially substituted template: brace-free text, or a
still-unsubstituted placeholder. -/
inductive Chunk
  | free (s : List Char)
  | hold (q : List Char)
deriving DecidableEq

def renderChunk : Chunk → List Char
  | .free s => s
  | .hold q => ph q

def goodChunk : Chunk → Prop
  | .free s => ∀ c ∈ s, ¬c = lbrace ∧ ¬c = rbrace
  | .hold q => ¬q = [] ∧ ∀ c ∈ q, isWordChar c = true

/-- Replacing `{{p}}` with `v` on the chunk view. -/
def replChunk (p v : List Char) : Chunk → Chunk
  | .free s => .free s
  | .hold q => if q = p then .free v else .hold q

theorem isWordChar_lbrace : isWordChar lbrace = false := by decide

theorem isWordChar_rbrace : isWordChar rbrace = false := by decide

theorem alookup_mem (k v : List Char) (args : List (List Char × List Char))
    (h : alookup k args = some v) : (k, v) ∈ args := by
  induction args with
  | nil => cases h
  | cons kv t ih =>
    rw [alookup] at h
    by_cases hk : kv.1 = k
    · rw [if_pos hk] at h
      have hv : kv.2 = v := by injection h
      have : kv = (k, v) := Prod.ext_iff.mpr ⟨hk, hv⟩
      exact this ▸ List.mem_cons_self kv t
    · rw [if_neg hk] at h
      exact List.mem_cons_of_mem kv (ih h)

theorem replaceAllAux_cons (p : Char) (ps v : List Char) (c : Char)
    (rest : List Char) :
    replaceAllAux p ps v (c :: rest) =
      if (p :: ps).isPrefixOf (c :: rest) then
        v ++ replaceAllAux p ps v (rest.drop ps.length)
      else c :: replaceAllAux p ps v rest := by
  rw [replaceAllAux]

theorem isPrefixOf_append_self (l t : List Char) :
    l.isPrefixOf (l ++ t) = true := by
  induction l with
  | nil => simp
  | cons a l' ih => simp [List.isPrefixOf, ih]

theorem replaceAllAux_append_free (ps v u t : List Char)
    (hu : ∀ c ∈ u, ¬c = lbrace) :
    replaceAllAux lbrace ps v (u ++ t) = u ++ replaceAllAux lbrace ps v t := by
  induction u with
  | nil => simp
  | cons c u' ih =>
    rw [List.cons_append, replaceAllAux_cons, if_neg ?_]
    · rw [ih (fun c hc => hu c (List.mem_cons_of_mem _ hc))]
      rfl
    · intro hpre
      have hand : (lbrace == c && ps.isPrefixOf (u' ++ t)) = true := hpre
      have hc := (Bool.and_eq_true _ _).mp hand
      exact hu c (List.mem_cons_self c u') (beq_iff_eq.mp hc.1).symm

/-- Two distinct word placeholders never match: the pattern body
`w}}` is not a prefix of `q}}…` when `w ≠ q`. -/
theorem word_body_not_prefix : ∀ (w q t : List Char),
    (∀ c ∈ w, isWordChar c = true) → (∀ c ∈ q, isWordChar c = true) →
    ¬w = q →
    (w ++ [rbrace, rbrace]).isPrefixOf ((q ++ [rbrace, rbrace]) ++ t) = false := by
  intro w
  induction w with
  | nil =>
    intro q t _ hq hne
    cases q with
    | nil => exact absurd rfl hne
    | cons q0 q' =>
      have hq0 : ¬ rbrace = q0 := by
        intro h
        have hw := hq q0 (List.mem_cons_self q0 q')
        rw [← h, isWordChar_rbrace] at hw
        cases hw
      show ((rbrace :: [rbrace]).isPrefixOf ((q0 :: (q' ++ [rbrace, rbrace])) ++ t)) = false
      rw [List.cons_append]
      show (rbrace == q0 && _) = false
      rw [show (rbrace == q0) = false from beq_eq_false_iff_ne.mpr hq0]
      rfl
  | cons w0 w' ih =>
    intro q t hw hq hne
    cases q with
    | nil =>
      have hw0 : ¬ w0 = rbrace := by
        intro h
        have hww := hw w0 (List.mem_cons_self w0 w')
        rw [h, isWordChar_rbrace] at hww
        cases hww
      show ((w0 :: (w' ++ [rbrace, rbrace])).isPrefixOf (([] ++ [rbrace, rbrace]) ++ t)) = false
      rw [List.nil_append, List.cons_append]
      show (w0 == rbrace && _) = false
      rw [show (w0 == rbrace) = false from beq_eq_false_iff_ne.mpr hw0]
      rfl
    | cons q0 q' =>
      by_cases h0 : w0 = q0
      · subst h0
        show ((w0 :: (w' ++ [rbrace, rbrace])).isPrefixOf ((w0 :: (q' ++ [rbrace, rbrace])) ++ t)) = false
        rw [List.cons_append]
        show (w0 == w0 && (w' ++ [rbrace, rbrace]).isPrefixOf ((q' ++ [rbrace, rbrace]) ++ t)) = false
        rw [beq_self_eq_true]
        rw [Bool.true_and]
        refine ih q' t (fun c hc => hw c (List.mem_cons_of_mem _ hc))
          (fun c hc => hq c (List.mem_cons_of_mem _ hc)) ?_
        intro h
        exact hne (by rw [h])
      · show ((w0 :: (w' ++ [rbrace, rbrace])).isPrefixOf ((q0 :: (q' ++ [rbrace, rbrace])) ++ t)) = false
        rw [List.cons_append]
        show (w0 == q0 && _) = false
        rw [show (w0 == q0) = false from beq_eq_false_iff_ne.mpr h0]
        rfl

/-- Replacing `{{w}}` passes over a different placeholder `{{q}}`. -/
theorem replaceAll_ph_other (w q v t : List Char)
    (hw : ∀ c ∈ w, isWordChar c = true)
    (hq : ¬q = [] ∧ ∀ c ∈ q, isWordChar c = true) (hne : ¬w = q) :
    replaceAll (ph w) v (ph q ++ t) = ph q ++ replaceAll (ph w) v t := by
  cases q with
  | nil => exact absurd rfl hq.1
  | cons q0 q' =>
    have hq0w : isWordChar q0 = true := hq.2 q0 (List.mem_cons_self q0 q')
    have hq0lb : ¬ q0 = lbrace := by
      intro h
      rw [h, isWordChar_lbrace] at hq0w
      cases hq0w
    have hfalse : (w ++ [rbrace, rbrace]).isPrefixOf
        (q0 :: ((q' ++ [rbrace, rbrace]) ++ t)) = false :=
      word_body_not_prefix w (q0 :: q') t hw hq.2 hne
    show replaceAllAux lbrace (lbrace :: (w ++ [rbrace, rbrace])) v
        (ph (q0 :: q') ++ t) =
      ph (q0 :: q') ++ replaceAllAux lbrace (lbrace :: (w ++ [rbrace, rbrace])) v t
    have hexp : ph (q0 :: q') ++ t =
        lbrace :: (lbrace :: (q0 :: ((q' ++ [rbrace, rbrace]) ++ t))) := by
      rw [ph]
      rfl
    rw [hexp]
    rw [replaceAllAux_cons, if_neg ?_]
    · rw [replaceAllAux_cons, if_neg ?_]
      · have hfree : ∀ c ∈ q0 :: (q' ++ [rbrace, rbrace]), ¬c = lbrace := by
          intro c hc
          rcases List.mem_cons.mp hc with h' | h'
          · intro he
            exact hq0lb (h'.symm.trans he)
          · rcases List.mem_append.mp h' with h2 | h2
            · intro he
              have hcw := hq.2 c (List.mem_cons_of_mem q0 h2)
              rw [he, isWordChar_lbrace] at hcw
              cases hcw
            · intro he
              rcases List.mem_cons.mp h2 with h3 | h3
              · rw [h3] at he
                exact absurd he.symm (by decide)
              · have h4 : c = rbrace := by simpa using h3
                rw [h4] at he
                exact absurd he.symm (by decide)
        have hsplit : q0 :: ((q' ++ [rbrace, rbrace]) ++ t) =
            (q0 :: (q' ++ [rbrace, rbrace])) ++ t := rfl
        rw [hsplit, replaceAllAux_append_free _ _ _ _ hfree]
        rw [ph]
        rfl
      · intro hpre
        have h2 := (Bool.and_eq_true _ _).mp hpre
        have h3 := (Bool.and_eq_true _ _).mp h2.2
        exact hq0lb (beq_iff_eq.mp h3.1).symm
    · intro hpre
      have h2 := (Bool.and_eq_true _ _).mp hpre
      have h3 := (Bool.and_eq_true _ _).mp h2.2
      have h4 := h3.2
      rw [hfalse] at h4
      cases h4

/-- Replacing `{{w}}` consumes its own occurrence. -/
theorem replaceAll_ph_self (w v t : List Char) :
    replaceAll (ph w) v (ph w ++ t) = v ++ replaceAll (ph w) v t := by
  show replaceAllAux lbrace (lbrace :: (w ++ [rbrace, rbrace])) v (ph w ++ t) =
    v ++ replaceAllAux lbrace (lbrace :: (w ++ [rbrace, rbrace])) v t
  have hexp : ph w ++ t = lbrace :: ((lbrace :: (w ++ [rbrace, rbrace])) ++ t) := by
    rw [ph]
    simp
  rw [hexp, replaceAllAux_cons, if_pos ?_]
  · congr 1
    rw [List.drop_left]
  · rw [← hexp]
    rw [show ph w ++ t = (lbrace :: lbrace :: (w ++ [rbrace, rbrace])) ++ t from by rw [ph]]
    exact isPrefixOf_append_self _ t

theorem replaceAllAux_nil (p : Char) (ps v : List Char) :
    replaceAllAux p ps v [] = [] := by
  rw [replaceAllAux]

theorem replaceAll_append_free (w v u t : List Char)
    (hu : ∀ c ∈ u, ¬c = lbrace) :
    replaceAll (ph w) v (u ++ t) = u ++ replaceAll (ph w) v t :=
  replaceAllAux_append_free (lbrace :: (w ++ [rbrace, rbrace])) v u t hu

/-- Replacing `{{p}}` on a rendered chunk list substitutes exactly the
`{{p}}` chunks and leaves everything else intact. -/
theorem replaceAll_chunks (p v : List Char)
    (chunks : List Chunk) (hgood : ∀ ch ∈ chunks, goodChunk ch)
    (hp : ∀ c ∈ p, isWordChar c = true) :
    replaceAll (ph p) v ((chunks.map renderChunk).flatten) =
      ((chunks.map (replChunk p v)).map renderChunk).flatten := by
  induction chunks with
  | nil =>
    show replaceAllAux lbrace (lbrace :: (p ++ [rbrace, rbrace])) v [] = []
    exact replaceAllAux_nil _ _ _
  | cons ch t ih =>
    have hgood' : ∀ c ∈ t, goodChunk c := fun c hc => hgood c (List.mem_cons_of_mem ch hc)
    cases ch with
    | free s =>
      have hfree : ∀ c ∈ s, ¬c = lbrace := by
        intro c hc
        exact ((hgood (.free s) (List.mem_cons_self _ t)) c hc).1
      show replaceAll (ph p) v (s ++ (t.map renderChunk).flatten) =
        s ++ ((t.map (replChunk p v)).map renderChunk).flatten
      rw [replaceAll_append_free p v s _ hfree, ih hgood']
    | hold q =>
      by_cases hq : q = p
      · subst hq
        show replaceAll (ph q) v (ph q ++ (t.map renderChunk).flatten) =
          renderChunk (replChunk q v (.hold q)) ++
            ((t.map (replChunk q v)).map renderChunk).flatten
        rw [replaceAll_ph_self, ih hgood']
        congr 1
        show v = renderChunk (if q = q then Chunk.free v else Chunk.hold q)
        rw [if_pos rfl]
        rfl
      · show replaceAll (ph p) v (ph q ++ (t.map renderChunk).flatten) =
          renderChunk (replChunk p v (.hold q)) ++
            ((t.map (replChunk p v)).map renderChunk).flatten
        rw [replaceAll_ph_other p q v _ hp
          (hgood (.hold q) (List.mem_cons_self _ t)) (fun h => hq (by rw [h]))]
        rw [ih hgood']
        congr 1
        show ph q = renderChunk (if q = p then Chunk.free v else Chunk.hold q)
        rw [if_neg hq]
        rfl

/-- The chunk view of a template after the parameters in `done` have been
substituted (when they have a value in `args`). -/
def chunkOfSeg (args : List (List Char × List Char)) (done : List (List Char)) :
    Seg → Chunk
  | .lit s => .free s
  | .par w =>
    match alookup w args with
    | some v => if w ∈ done then .free v else .hold w
    | none => .hold w

def chunksOf (args : List (List Char × List Char)) (done : List (List Char))
    (segs : List Seg) : List Chunk :=
  segs.map (chunkOfSeg args done)

theorem chunksOf_good (args : List (List Char × List Char))
    (done : List (List Char)) (segs : List Seg)
    (hgood : ∀ g ∈ segs, goodSeg g)
    (hvals : ∀ kv ∈ args, ∀ c ∈ kv.2, ¬c = lbrace ∧ ¬c = rbrace) :
    ∀ ch ∈ chunksOf args done segs, goodChunk ch := by
  intro ch hch
  obtain ⟨g, hg, hgch⟩ := List.mem_map.mp hch
  cases g with
  | lit s =>
    rw [← hgch]
    exact hgood (.lit s) hg
  | par w =>
    rw [← hgch]
    show goodChunk (chunkOfSeg args done (.par w))
    cases halook : alookup w args with
    | none =>
      rw [chunkOfSeg, halook]
      exact hgood (.par w) hg
    | some v =>
      rw [chunkOfSeg, halook]
      show goodChunk (if w ∈ done then Chunk.free v else Chunk.hold w)
      by_cases hdone : w ∈ done
      · rw [if_pos hdone]
        exact fun c hc => hvals (w, v) (alookup_mem w v args halook) c hc
      · rw [if_neg hdone]
        exact hgood (.par w) hg

/-- The body of the substitution fold of `process_prompt`. -/
def substStep (args : List (List Char × List Char)) (pr param : List Char) :
    List Char :=
  match alookup param args with
  | some v => replaceAll (ph param) v pr
  | none => pr

theorem substStep_some (args : List (List Char × List Char)) (pr p v : List Char)
    (h : alookup p args = some v) :
    substStep args pr p = replaceAll (ph p) v pr := by
  unfold substStep
  rw [h]

theorem substStep_none (args : List (List Char × List Char)) (pr p : List Char)
    (h : alookup p args = none) : substStep args pr p = pr := by
  unfold substStep
  rw [h]

/-- Running the replacement fold over parameters `ps` extends the set of
substituted parameters. -/
theorem foldl_replace_chunks (args : List (List Char × List Char))
    (segs : List Seg) (hgood : ∀ g ∈ segs, goodSeg g)
    (hvals : ∀ kv ∈ args, ∀ c ∈ kv.2, ¬c = lbrace ∧ ¬c = rbrace) :
    ∀ (ps done : List (List Char)),
      (∀ x ∈ ps, ∀ c ∈ x, isWordChar c = true) →
      ps.foldl (substStep args)
        (((chunksOf args done segs).map renderChunk).flatten) =
      ((chunksOf args (done ++ ps) segs).map renderChunk).flatten := by
  intro ps
  induction ps with
  | nil =>
    intro done _
    rw [List.foldl_nil, List.append_nil]
  | cons p ps' ih =>
    intro done hps
    rw [List.foldl_cons]
    have hps' : ∀ x ∈ ps', ∀ c ∈ x, isWordChar c = true :=
      fun x hx => hps x (List.mem_cons_of_mem p hx)
    have hassoc : done ++ p :: ps' = (done ++ [p]) ++ ps' := by
      rw [List.append_assoc]
      rfl
    rw [hassoc]
    cases halook : alookup p args with
    | none =>
      rw [substStep_none args _ p halook]
      have hch : chunksOf args done segs = chunksOf args (done ++ [p]) segs := by
        unfold chunksOf
        refine List.map_congr_left (fun g _ => ?_)
        cases g with
        | lit s => rfl
        | par w =>
          cases hw : alookup w args with
          | none => rw [chunkOfSeg, hw, chunkOfSeg, hw]
          | some v =>
            rw [chunkOfSeg, hw, chunkOfSeg, hw]
            show (if w ∈ done then Chunk.free v else Chunk.hold w) =
              (if w ∈ done ++ [p] then Chunk.free v else Chunk.hold w)
            have hwp : ¬ w = p := by
              intro h
              rw [h, halook] at hw
              cases hw
            have hmem : w ∈ done ↔ w ∈ done ++ [p] := by
              rw [List.mem_append]
              constructor
              · exact fun h => Or.inl h
              · rintro (h | h)
                · exact h
                · exact absurd (by simpa using h) hwp
            by_cases hdone : w ∈ done
            · rw [if_pos hdone, if_pos (hmem.mp hdone)]
            · rw [if_neg hdone, if_neg (fun h => hdone (hmem.mpr h))]
      rw [hch]
      exact ih (done ++ [p]) hps'
    | some v =>
      rw [substStep_some args _ p v halook]
      rw [replaceAll_chunks p v (chunksOf args done segs)
        (chunksOf_good args done segs hgood hvals)
        (hps p (List.mem_cons_self p ps'))]
      have hch : (chunksOf args done segs).map (replChunk p v) =
          chunksOf args (done ++ [p]) segs := by
        unfold chunksOf
        rw [List.map_map]
        refine List.map_congr_left (fun g _ => ?_)
        show replChunk p v (chunkOfSeg args done g) = chunkOfSeg args (done ++ [p]) g
        cases g with
        | lit s => rfl
        | par w =>
          cases hw : alookup w args with
          | none =>
            rw [chunkOfSeg, hw, chunkOfSeg, hw]
            show (if w = p then Chunk.free v else Chunk.hold w) = Chunk.hold w
            rw [if_neg ?_]
            intro h
            rw [h, halook] at hw
            cases hw
          | some vw =>
            rw [chunkOfSeg, hw, chunkOfSeg, hw]
            show replChunk p v (if w ∈ done then Chunk.free vw else Chunk.hold w) =
              (if w ∈ done ++ [p] then Chunk.free vw else Chunk.hold w)
            by_cases hdone : w ∈ done
            · rw [if_pos hdone, if_pos (List.mem_append.mpr (Or.inl hdone))]
              rfl
            · rw [if_neg hdone]
              by_cases hwp : w = p
              · have hv : vw = v := by
                  rw [hwp, halook] at hw
                  injection hw with h
                  exact h.symm
                have hmemp : w ∈ done ++ [p] := by
                  rw [List.mem_append]
                  refine Or.inr ?_
                  rw [hwp]
                  exact List.mem_cons_self p []
                rw [if_pos hmemp]
                show (if w = p then Chunk.free v else Chunk.hold w) = Chunk.free vw
                rw [if_pos hwp, hv]
              · have hmemp : ¬ w ∈ done ++ [p] := by
                  intro h
                  rcases List.mem_append.mp h with h' | h'
                  · exact hdone h'
                  · exact hwp (by simpa using h')
                rw [if_neg hmemp]
                show (if w = p then Chunk.free v else Chunk.hold w) = Chunk.hold w
                rw [if_neg hwp]
      rw [hch]
      exact ih (done ++ [p]) hps'

theorem findParams_of_none (s : List Char) (h : matchParam s = none) :
    findParams s = (match s with | [] => [] | _ :: t => findParams t) := by
  conv_lhs => unfold findParams
  split
  · rename_i w rest hm
    rw [h] at hm
    cases hm
  · rfl

theorem findParams_of_some (s w rest : List Char)
    (h : matchParam s = some (w, rest)) :
    findParams s = w :: findParams rest := by
  conv_lhs => unfold findParams
  split
  · rename_i w' rest' hm
    rw [h] at hm
    injection hm with hm2
    injection hm2 with h1 h2
    rw [h1, h2]
  · rename_i hm
    rw [h] at hm
    cases hm

theorem findParams_nil : findParams [] = [] := by
  rw [findParams_of_none [] rfl]

theorem matchParam_head_ne (c : Char) (rest : List Char) (hc : ¬c = lbrace) :
    matchParam (c :: rest) = none := by
  cases rest with
  | nil => rfl
  | cons c2 r =>
    show (if c = lbrace ∧ c2 = lbrace then _ else none) = none
    rw [if_neg (fun h => hc h.1)]

theorem findParams_append_free (u t : List Char) (hu : ∀ c ∈ u, ¬c = lbrace) :
    findParams (u ++ t) = findParams t := by
  induction u with
  | nil => rfl
  | cons c u' ih =>
    rw [List.cons_append,
      findParams_of_none _ (matchParam_head_ne c (u' ++ t)
        (hu c (List.mem_cons_self c u')))]
    exact ih (fun c hc => hu c (List.mem_cons_of_mem _ hc))

theorem takeWhile_word_prefix (w : List Char) (l : List Char)
    (hw : ∀ c ∈ w, isWordChar c = true) :
    (w ++ rbrace :: l).takeWhile isWordChar = w := by
  induction w with
  | nil =>
    rw [List.nil_append, List.takeWhile_cons]
    rw [isWordChar_rbrace]
    rfl
  | cons a w' ih =>
    rw [List.cons_append, List.takeWhile_cons, hw a (List.mem_cons_self a w')]
    rw [if_pos rfl]
    rw [ih (fun c hc => hw c (List.mem_cons_of_mem _ hc))]

theorem matchParam_ph (w t : List Char)
    (hw : ¬w = [] ∧ ∀ c ∈ w, isWordChar c = true) :
    matchParam (ph w ++ t) = some (w, t) := by
  have hexp : ph w ++ t = lbrace :: lbrace :: ((w ++ [rbrace, rbrace]) ++ t) := by
    rw [ph]
    rfl
  have hbody : (w ++ [rbrace, rbrace]) ++ t = w ++ rbrace :: rbrace :: t := by
    rw [List.append_assoc]
    rfl
  have htake : ((w ++ [rbrace, rbrace]) ++ t).takeWhile isWordChar = w := by
    rw [hbody]
    exact takeWhile_word_prefix w (rbrace :: t) hw.2
  have hdrop : ((w ++ [rbrace, rbrace]) ++ t).drop w.length = rbrace :: rbrace :: t := by
    rw [hbody]
    have := List.drop_left w (rbrace :: rbrace :: t)
    exact this
  rw [hexp]
  show (if lbrace = lbrace ∧ lbrace = lbrace then
      let w' := ((w ++ [rbrace, rbrace]) ++ t).takeWhile isWordChar
      match ((w ++ [rbrace, rbrace]) ++ t).drop w'.length with
      | d1 :: d2 :: rest2 =>
        if ¬w' = [] ∧ d1 = rbrace ∧ d2 = rbrace then some (w', rest2) else none
      | _ => none
    else none) = some (w, t)
  rw [if_pos ⟨rfl, rfl⟩]
  simp only [htake, hdrop]
  simp [hw.1]

/-- `findParams` on a rendered template recovers exactly its parameter
names, in order. -/
theorem findParams_renderTemplate (segs : List Seg)
    (hgood : ∀ g ∈ segs, goodSeg g) :
    findParams (renderTemplate segs) = segParams segs := by
  induction segs with
  | nil =>
    rw [renderTemplate]
    exact findParams_nil
  | cons g t ih =>
    have hgood' : ∀ x ∈ t, goodSeg x := fun x hx => hgood x (List.mem_cons_of_mem g hx)
    cases g with
    | lit s =>
      show findParams (s ++ renderTemplate t) = segParams t
      rw [findParams_append_free s _ (fun c hc => ((hgood (.lit s)
        (List.mem_cons_self _ t)) c hc).1)]
      exact ih hgood'
    | par w =>
      show findParams (ph w ++ renderTemplate t) = w :: segParams t
      rw [findParams_of_some _ w _ (matchParam_ph w _ (hgood (.par w)
        (List.mem_cons_self _ t)))]
      rw [ih hgood']

theorem chunksOf_nil_done (args : List (List Char × List Char)) (segs : List Seg) :
    ((chunksOf args [] segs).map renderChunk).flatten = renderTemplate segs := by
  unfold chunksOf renderTemplate
  rw [List.map_map]
  congr 1
  refine List.map_congr_left (fun g _ => ?_)
  cases g with
  | lit s => rfl
  | par w =>
    show renderChunk (chunkOfSeg args [] (.par w)) = ph w
    cases hw : alookup w args with
    | none =>
      rw [chunkOfSeg, hw]
      rfl
    | some v =>
      rw [chunkOfSeg, hw]
      show renderChunk (if w ∈ ([] : List (List Char)) then Chunk.free v else Chunk.hold w) = ph w
      rw [if_neg (List.not_mem_nil w)]
      rfl

theorem mem_segParams_of_par (w : List Char) (segs : List Seg)
    (h : Seg.par w ∈ segs) : w ∈ segParams segs := by
  induction segs with
  | nil => cases h
  | cons g t ih =>
    rcases List.mem_cons.mp h with h' | h'
    · rw [← h']
      rw [segParams]
      exact List.mem_cons_self w _
    · cases g with
      | lit s =>
        rw [segParams]
        exact ih h'
      | par w' =>
        rw [segParams]
        exact List.mem_cons_of_mem w' (ih h')

theorem par_of_mem_segParams (w : List Char) (segs : List Seg)
    (h : w ∈ segParams segs) : Seg.par w ∈ segs := by
  induction segs with
  | nil => cases h
  | cons g t ih =>
    cases g with
    | lit s =>
      rw [segParams] at h
      exact List.mem_cons_of_mem _ (ih h)
    | par w' =>
      rw [segParams] at h
      rcases List.mem_cons.mp h with h' | h'
      · rw [h']
        exact List.mem_cons_self _ t
      · exact List.mem_cons_of_mem _ (ih h')

theorem chunksOf_full_done (args : List (List Char × List Char)) (segs : List Seg) :
    ((chunksOf args (segParams segs) segs).map renderChunk).flatten =
      (segs.map (substSeg args)).flatten := by
  unfold chunksOf
  rw [List.map_map]
  congr 1
  refine List.map_congr_left (fun g hg => ?_)
  cases g with
  | lit s => rfl
  | par w =>
    show renderChunk (chunkOfSeg args (segParams segs) (.par w)) = substSeg args (.par w)
    cases hw : alookup w args with
    | none =>
      rw [chunkOfSeg, hw, substSeg, hw]
      rfl
    | some v =>
      rw [chunkOfSeg, hw, substSeg, hw]
      show renderChunk (if w ∈ segParams segs then Chunk.free v else Chunk.hold w) = v
      rw [if_pos (mem_segParams_of_par w segs hg)]
      rfl

theorem substSeg_of_segParams_nil (args : List (List Char × List Char))
    (segs : List Seg) (h : segParams segs = []) :
    segs.map (substSeg args) = segs.map renderSeg := by
  induction segs with
  | nil => rfl
  | cons g t ih =>
    cases g with
    | lit s =>
      rw [segParams] at h
      rw [List.map_cons, List.map_cons, ih h]
      rfl
    | par w =>
      rw [segParams] at h
      cases h

instance (g : Seg) : Decidable (goodSeg g) := by
  cases g with
  | lit s => exact inferInstanceAs (Decidable (∀ c ∈ s, ¬c = lbrace ∧ ¬c = rbrace))
  | par w =>
    exact inferInstanceAs (Decidable (¬w = [] ∧ ∀ c ∈ w, isWordChar c = true))

/-- C7: over any template made of brace-free literals and `{{word}}`
placeholders, with brace-free argument values, `process_prompt`'s core:
finds exactly the template's parameters; returns the template with every
placeholder whose name has a value in `args` replaced by that (stringified)
value and every other placeholder left verbatim (warn-and-continue); in
particular each missing placeholder still occurs in the returned prompt —
which is what is sent to the model — and each present one's value occurs
in it. -/
theorem C7_missing_args_unsubstituted (name : List Char) (tl : Option (List Char))
    (segs : List Seg) (args : List (List Char × List Char))
    (hgood : ∀ g ∈ segs, goodSeg g)
    (hvals : ∀ kv ∈ args, ∀ c ∈ kv.2, ¬c = lbrace ∧ ¬c = rbrace) :
    findParams (renderTemplate segs) = segParams segs ∧
    processPromptCore name (renderTemplate segs) (some args) tl =
      (segs.map (substSeg args)).flatten ∧
    (∀ w, Seg.par w ∈ segs → alookup w args = none →
      ∃ pre suf, processPromptCore name (renderTemplate segs) (some args) tl =
        pre ++ (ph w ++ suf)) ∧
    (∀ w v, Seg.par w ∈ segs → alookup w args = some v →
      ∃ pre suf, processPromptCore name (renderTemplate segs) (some args) tl =
        pre ++ (v ++ suf)) := by
  have hfind : findParams (renderTemplate segs) = segParams segs :=
    findParams_renderTemplate segs hgood
  have hmain : processPromptCore name (renderTemplate segs) (some args) tl =
      (segs.map (substSeg args)).flatten := by
    unfold processPromptCore
    rw [hfind]
    by_cases hz : (segParams segs).isEmpty = true
    · rw [if_pos hz]
      have hnil : segParams segs = [] := by
        rwa [List.isEmpty_iff] at hz
      rw [substSeg_of_segParams_nil args segs hnil]
      rfl
    · rw [if_neg hz]
      show List.foldl (substStep args) (renderTemplate segs) (segParams segs) =
        (segs.map (substSeg args)).flatten
      have hwords : ∀ x ∈ segParams segs, ∀ c ∈ x, isWordChar c = true := by
        intro x hx
        exact (hgood (.par x) (par_of_mem_segParams x segs hx)).2
      rw [show renderTemplate segs =
        ((chunksOf args [] segs).map renderChunk).flatten from
        (chunksOf_nil_done args segs).symm]
      rw [foldl_replace_chunks args segs hgood hvals (segParams segs) [] hwords]
      rw [List.nil_append]
      exact chunksOf_full_done args segs
  refine ⟨hfind, hmain, ?_, ?_⟩
  · intro w hw hnone
    obtain ⟨s1, s2, hsplit⟩ := List.append_of_mem hw
    refine ⟨(s1.map (substSeg args)).flatten, (s2.map (substSeg args)).flatten, ?_⟩
    rw [hmain, hsplit]
    rw [List.map_append, List.map_cons, List.flatten_append, List.flatten_cons]
    congr 2
    rw [substSeg, hnone]
  · intro w v hw hsome
    obtain ⟨s1, s2, hsplit⟩ := List.append_of_mem hw
    refine ⟨(s1.map (substSeg args)).flatten, (s2.map (substSeg args)).flatten, ?_⟩
    rw [hmain, hsplit]
    rw [List.map_append, List.map_cons, List.flatten_append, List.flatten_cons]
    congr 2
    rw [substSeg, hsome]

def demoSegs : List Seg :=
  [.lit "Translate to ".toList, .par "language".toList,
   .lit ": ".toList, .par "text".toList]

def demoArgs : List (List Char × List Char) :=
  [("language".toList, "English".toList)]

theorem C7_missing_args_unsubstituted_witness :
    (∀ g ∈ demoSegs, goodSeg g) ∧
    (∀ kv ∈ demoArgs, ∀ c ∈ kv.2, ¬c = lbrace ∧ ¬c = rbrace) ∧
    processPromptCore "translate".toList (renderTemplate demoSegs)
        (some demoArgs) none =
      (demoSegs.map (substSeg demoArgs)).flatten :=
  ⟨by decide, by decide,
   (C7_missing_args_unsubstituted "translate".toList none demoSegs demoArgs
     (by decide) (by decide)).2.1⟩
